import Mathlib

/-
Verification development for the review-scraper repository
(src/extractors/utils_text.py and src/extractors/reviews_parser.py).

Strings are modelled as `List Char` (`"...".data`).  The external
capabilities (HTTP transport, markup query engine, `urlparse`, `urljoin`)
are modelled as explicit inputs / small abstractions, exactly as the spec
delimits them; every function of the repository itself is translated
line by line from the Python source.  Python-specific semantics that the
source relies on (string/float truthiness, `x or y`, regular-expression
search) are modelled explicitly.  Character classes (`\d`, `\s`,
`str.isalnum`) are modelled over ASCII, which covers every string the
program manipulates.
-/

namespace Scraper

/-! ### Character classes (ASCII models of Python `\s`, `\d`, `str.isalnum`) -/

/-- ASCII whitespace as recognised by Python `str.split()` / `str.strip()` / `\s`. -/
def isPySpace (c : Char) : Bool :=
  c = ' ' || c = '\t' || c = '\n' || c = '\r' || c = '\x0b' || c = '\x0c'

/-- ASCII decimal digit (`\d`). -/
def isDigitC (c : Char) : Bool := '0' ≤ c && c ≤ '9'

/-- character admitted by the `[A-Z0-9]` class of the ASIN regexes. -/
def isUpperAlnum (c : Char) : Bool := ('A' ≤ c && c ≤ 'Z') || ('0' ≤ c && c ≤ '9')

/-- ASCII model of Python `str.isalnum` (used by the fallback segment scan). -/
def isAsciiAlnum (c : Char) : Bool := c.isAlpha || c.isDigit

/-! ### utils_text.py : `clean_text` -/

/-- Split a character list at separator characters, discarding empty pieces.
With `sep := isPySpace` this is Python `str.split()`; with `sep := (· = '/')`
it is `[seg for seg in path.split("/") if seg]`. -/
def splitOnPred (sep : Char → Bool) : List Char → List (List Char)
  | [] => []
  | c :: rest =>
    if sep c then splitOnPred sep rest
    else (c :: rest.takeWhile (fun d => !sep d)) ::
      splitOnPred sep (rest.dropWhile (fun d => !sep d))
termination_by l => l.length
decreasing_by
  · simp
  · have h : (rest.dropWhile (fun d => !sep d)).length ≤ rest.length := by
      induction rest with
      | nil => simp
      | cons x xs ih =>
        by_cases hx : (!sep x) = true
        · simp [List.dropWhile_cons, hx]
          omega
        · simp [List.dropWhile_cons, hx]
    simp; omega

/-- Python `str.split()` (split on whitespace runs, no empty words). -/
def pySplit (l : List Char) : List (List Char) := splitOnPred isPySpace l

/-- Python `" ".join(words)`. -/
def joinSpace : List (List Char) → List Char
  | [] => []
  | [w] => w
  | w :: v :: ws => w ++ ' ' :: joinSpace (v :: ws)

/-- Python `str.strip()` (drop leading and trailing whitespace). -/
def pyStrip (l : List Char) : List Char :=
  ((l.dropWhile isPySpace).reverse.dropWhile isPySpace).reverse

/-- utils_text.clean_text on a (non-None) string:
`cleaned = " ".join(text.split()); return cleaned.strip()`. -/
def clean_text (l : List Char) : List Char :=
  pyStrip (joinSpace (pySplit l))

/-- utils_text.clean_text including the `if text is None: return ""` branch. -/
def clean_text_opt : Option (List Char) → List Char
  | none => []
  | some t => clean_text t

/-! ### Regular-expression search

Each compiled pattern of the source is deterministic enough that a
leftmost `re.search` is: try the position-anchored matcher at every
suffix, left to right. -/

/-- `re.search`: first position (scanning left to right, including the
empty suffix at the end) where the position-anchored matcher `f` fires. -/
def findFirst {α : Type} (f : List Char → Option α) : List Char → Option α
  | [] => f []
  | c :: rest =>
    match f (c :: rest) with
    | some a => some a
    | none => findFirst f rest

/-- Consume the exact (case-sensitive) literal `lit` from the front of `l`. -/
def dropLit : List Char → List Char → Option (List Char)
  | [], l => some l
  | _ :: _, [] => none
  | p :: ps, c :: cs => if p = c then dropLit ps cs else none

/-- Case-insensitive character comparison (`re.IGNORECASE`). -/
def lowerEq (a b : Char) : Bool := a.toLower = b.toLower

/-- Consume the literal `pat` case-insensitively from the front of `l`. -/
def matchCI : List Char → List Char → Option (List Char)
  | [], l => some l
  | _ :: _, [] => none
  | p :: ps, c :: cs => if lowerEq p c then matchCI ps cs else none

def startsWithLit (pat l : List Char) : Bool := (dropLit pat l).isSome

def startsWithCI (pat l : List Char) : Bool := (matchCI pat l).isSome

/-- Case-sensitive substring test (Python `pat in text`). -/
def containsSub (pat : List Char) : List Char → Bool
  | [] => pat.isEmpty
  | c :: rest => startsWithLit pat (c :: rest) || containsSub pat rest

/-- Case-insensitive substring test (`pat in text.lower()` for a lowercase `pat`). -/
def containsCI (pat : List Char) : List Char → Bool
  | [] => pat.isEmpty
  | c :: rest => startsWithCI pat (c :: rest) || containsCI pat rest

/-! ### utils_text.py : `parse_helpful_votes` -/

/-- Numeric value of a digit run (`int(match.group(1))`). -/
def natOfDigits : List Char → Nat :=
  List.foldl (fun acc c => 10 * acc + (c.toNat - '0'.toNat)) 0

def foundLit : List Char := " found this helpful".data

def peoplLit : List Char := "peopl".data

def onePersonLit : List Char := "one person found this helpful".data

/-- Position-anchored matcher for
`_HELPFUL_RE = (\d+)\s+people? found this helpful` (IGNORECASE).
Note the `?` of the source pattern applies to the final `e` alone, so the
word matched is `people` or `peopl` -- never `person`. -/
def matchHelpfulAt (l : List Char) : Option Nat :=
  let ds := l.takeWhile isDigitC
  let r1 := l.dropWhile isDigitC
  let ss := r1.takeWhile isPySpace
  let r2 := r1.dropWhile isPySpace
  if ds.isEmpty || ss.isEmpty then none
  else
    match matchCI peoplLit r2 with
    | none => none
    | some r3 =>
      if (matchCI ('e' :: foundLit) r3).isSome || (matchCI foundLit r3).isSome
      then some (natOfDigits ds) else none

/-- utils_text.parse_helpful_votes. -/
def parse_helpful_votes (l : List Char) : Nat :=
  if l.isEmpty then 0
  else
    match findFirst matchHelpfulAt l with
    | some n => n
    | none => if containsCI onePersonLit l then 1 else 0

/-! ### utils_text.py : `parse_rating_score`

Python floats of the shape `d` / `d.e` (one digit each) are represented
exactly; we model the returned value in `ℚ`. -/

/-- character admitted by the leading `[0-5]` class of `_RATING_RE`. -/
def isRatingDigit (c : Char) : Bool := '0' ≤ c && c ≤ '5'

def outOfLit : List Char := "out of".data

def digitVal (c : Char) : ℚ := ((c.toNat - '0'.toNat : Nat) : ℚ)

/-- The `\s+out of\s+5` tail of `_RATING_RE`, anchored at the front of `r`. -/
def ratingTail (r : List Char) : Bool :=
  if (r.takeWhile isPySpace).isEmpty then false
  else
    match matchCI outOfLit (r.dropWhile isPySpace) with
    | none => false
    | some r2 =>
      if (r2.takeWhile isPySpace).isEmpty then false
      else
        match r2.dropWhile isPySpace with
        | '5' :: _ => true
        | _ => false

/-- Position-anchored matcher for
`_RATING_RE = ([0-5](?:\.\d)?)\s+out of\s+5` (IGNORECASE).
When the two characters after the leading digit are `.` and a digit the
optional group is forced (declining it leaves `\s+` facing the `.`, which
fails); when the character after the leading digit is `.` but no digit
follows, both taking and declining the group fail (`ratingTail` on a
`.`-headed list is `false`), so the branches below coincide with the
regex's backtracking behaviour. -/
def matchRatingAt : List Char → Option ℚ
  | [] => none
  | c :: rest =>
    if isRatingDigit c then
      match rest with
      | r0 :: d :: rest2 =>
        if r0 = '.' then
          if isDigitC d then
            if ratingTail rest2 then some (digitVal c + digitVal d / 10)
            else none
          else none
        else if ratingTail rest then some (digitVal c) else none
      | _ => if ratingTail rest then some (digitVal c) else none
    else none

/-- utils_text.parse_rating_score. -/
def parse_rating_score (l : List Char) : Option ℚ :=
  if l.isEmpty then none else findFirst matchRatingAt l

/-! ### reviews extractor : `_extract_asin`

`urlparse` (external `urllib` capability) maps a URL string to its
components; `_extract_asin` only reads `parsed.path` and `parsed.query`,
so a URL is modelled by that pair. -/

structure Url where
  path : List Char
  query : List Char

def dpLit : List Char := "/dp/".data

def gpLit : List Char := "/gp/product/".data

def prLit : List Char := "/product-reviews/".data

def asinEqLit : List Char := "ASIN=".data

/-- Position-anchored matcher for a literal followed by `([A-Z0-9]{10})`. -/
def matchLit10 (lit : List Char) (l : List Char) : Option (List Char) :=
  match dropLit lit l with
  | none => none
  | some r =>
    if 10 ≤ r.length then
      if (r.take 10).all isUpperAlnum then some (r.take 10) else none
    else none

/-- Position-anchored matcher for `[?&]ASIN=([A-Z0-9]{10})`. -/
def matchAsinQueryAt : List Char → Option (List Char)
  | [] => none
  | c :: rest => if c = '?' || c = '&' then matchLit10 asinEqLit rest else none

/-- Nonempty path segments, i.e. `[seg for seg in path.split("/") if seg]`. -/
def pathSegments (path : List Char) : List (List Char) :=
  splitOnPred (fun c => c = '/') path

/-- `len(seg) == 10 and seg.isalnum()`. -/
def isValidSeg (s : List Char) : Bool := s.length = 10 && s.all isAsciiAlnum

/-- reviews scraper `_extract_asin`, over the path and query components. -/
def extract_asin (path query : List Char) : Option (List Char) :=
  match findFirst (matchLit10 dpLit) path with
  | some a => some a
  | none =>
  match findFirst (matchLit10 gpLit) path with
  | some a => some a
  | none =>
  match findFirst (matchLit10 prLit) path with
  | some a => some a
  | none =>
  match findFirst matchAsinQueryAt query with
  | some a => some a
  | none => (pathSegments path).reverse.find? isValidSeg

/-! ### `_fetch_html_with_retries`

The HTTP transport is external; one call of it is an `Attempt` outcome
(a response with a status code and body, or a transport-level
exception).  The function's observable behaviour is its returned value
plus the trace of attempt numbers issued and sleeps performed. -/

inductive Attempt where
  | response (code : Nat) (body : List Char)
  | failure
deriving DecidableEq

structure FetchTrace where
  result : Option (List Char)
  sleeps : List ℚ
  attempts : List Nat
deriving DecidableEq

/-- The retry loop body, over the remaining 1-based attempt numbers:
a response with status 200 returns its body immediately; any other
response, or a transport failure, sleeps `d * attempt` and continues. -/
def fetchGo (d : ℚ) (oc : Nat → Attempt) : List Nat → FetchTrace
  | [] => ⟨none, [], []⟩
  | k :: rest =>
    match oc k with
    | .response code body =>
      if code = 200 then ⟨some body, [], [k]⟩
      else
        let r := fetchGo d oc rest
        ⟨r.result, d * (k : ℚ) :: r.sleeps, k :: r.attempts⟩
    | .failure =>
      let r := fetchGo d oc rest
      ⟨r.result, d * (k : ℚ) :: r.sleeps, k :: r.attempts⟩

/-- reviews scraper `_fetch_html_with_retries` with `retry_count` attempts and
`sleep_between_requests = d` (the backoff base). -/
def fetch_html_with_retries (retryCount : Nat) (d : ℚ) (oc : Nat → Attempt) : FetchTrace :=
  fetchGo d oc (List.range' 1 retryCount)

/-! ### `_parse_single_review`

A review block is the tuple of results of the block's selector queries
(the markup query engine is external): each field holds the `get_text`
of the selected node (`none` when the selector finds nothing), links
keep their optional `href`, image tiles their optional `src` /
`data-src` attributes. -/

structure LinkNode where
  text : List Char
  href : Option (List Char)
deriving DecidableEq

structure ImgNode where
  src : Option (List Char)
  dataSrc : Option (List Char)
deriving DecidableEq

structure ReviewBlock where
  /-- `i[data-hook='review-star-rating'] span.a-icon-alt`, `get_text(strip=True)` -/
  starIconAlt : Option (List Char)
  /-- `span.a-icon-alt`, `get_text(strip=True)` -/
  genericIconAlt : Option (List Char)
  /-- `a[data-hook='review-title'] span`, `get_text(strip=True)` -/
  titleSpanText : Option (List Char)
  /-- `a[data-hook='review-title']` with text and `href` -/
  titleLink : Option LinkNode
  /-- `span[data-hook='helpful-vote-statement']`, `get_text(strip=True)` -/
  helpfulStatement : Option (List Char)
  /-- `span[data-hook='review-date']`, `get_text(strip=True)` -/
  reviewDate : Option (List Char)
  /-- `span[data-hook='review-body'] span`, `get_text(" ", strip=True)` -/
  bodySpanInner : Option (List Char)
  /-- `span[data-hook='review-body']`, `get_text(" ", strip=True)` -/
  bodySpanText : Option (List Char)
  /-- `span[data-hook='avp-badge']`, raw `get_text()` -/
  avpBadgeText : Option (List Char)
  /-- `a[data-hook='format-strip']`, `get_text(" ", strip=True)` -/
  formatStripText : Option (List Char)
  /-- `img[data-hook='review-image-tile']`, in document order -/
  imageTiles : List ImgNode
deriving DecidableEq

structure Review where
  productAsin : List Char
  ratingScore : Option ℚ
  reviewTitle : List Char
  reviewUrl : List Char
  reviewReaction : List Char
  reviewedIn : List Char
  reviewDescription : List Char
  isVerified : Bool
  variant : List Char
  reviewImages : List (List Char)
  position : Nat
  helpfulVotes : Nat
deriving DecidableEq

def BASE_DOMAIN : List Char := "https://www.amazon.com".data

/-- Modelled `urllib.parse.urljoin` (external capability): an absolute href
is kept, a relative one is resolved against the base origin.  No claim
depends on its internals. -/
def urljoinModel (base href : List Char) : List Char :=
  if startsWithLit "http".data href then href else base ++ href

/-- Python `a or b` for two `Optional[str]` values: an absent or empty
first operand falls through to the second. -/
def pyOrStr : Option (List Char) → Option (List Char) → Option (List Char)
  | some s, b => if s.isEmpty then b else some s
  | none, b => b

/-- Python truthiness of the `Optional[float]` rating (`None` and `0.0`
are falsy). -/
def pyTruthyRating : Option ℚ → Bool
  | none => false
  | some x => if x = 0 then false else true

/-- `rating_text` of `_parse_single_review` (empty when neither
rating selector finds a node; Tag objects are always truthy, so the
`or` of the two selectors is `Option.orElse`). -/
def ratingTextOf (b : ReviewBlock) : List Char :=
  match b.starIconAlt <|> b.genericIconAlt with
  | some t => t
  | none => []

/-- `rating_score` of `_parse_single_review`. -/
def ratingScoreOf (b : ReviewBlock) : Option ℚ :=
  parse_rating_score (ratingTextOf b)

/-- `review_description` of `_parse_single_review`. -/
def reviewDescriptionOf (b : ReviewBlock) : List Char :=
  match b.bodySpanInner <|> b.bodySpanText with
  | some t => clean_text t
  | none => []

/-- The image-collection loop of `_parse_single_review`:
`src = img.get("src") or img.get("data-src"); if src: append(src)`. -/
def imageSrcsOf (tiles : List ImgNode) : List (List Char) :=
  tiles.filterMap fun img =>
    match pyOrStr img.src img.dataSrc with
    | some s => if s.isEmpty then none else some s
    | none => none

/-- reviews scraper `_parse_single_review`. -/
def parse_single_review (asin : List Char) (position : Nat) (b : ReviewBlock) :
    Option Review :=
  let rating_score := ratingScoreOf b
  let review_title :=
    match b.titleSpanText <|> (b.titleLink.map LinkNode.text) with
    | some t => clean_text t
    | none => []
  let review_url :=
    match b.titleLink with
    | some l =>
      match l.href with
      | some h => urljoinModel BASE_DOMAIN h
      | none => []
    | none => []
  let review_reaction :=
    match b.helpfulStatement with
    | some t => clean_text t
    | none => "0 people found this helpful".data
  let reviewed_in :=
    match b.reviewDate with
    | some t => clean_text t
    | none => []
  let review_description := reviewDescriptionOf b
  let is_verified :=
    match b.avpBadgeText with
    | some t => containsSub "Verified Purchase".data t
    | none => false
  let variant :=
    match b.formatStripText with
    | some t => clean_text t
    | none => []
  let review_images := imageSrcsOf b.imageTiles
  if review_description.isEmpty && !pyTruthyRating rating_score then none
  else
    some
      { productAsin := asin
        ratingScore := rating_score
        reviewTitle := review_title
        reviewUrl := review_url
        reviewReaction := review_reaction
        reviewedIn := reviewed_in
        reviewDescription := review_description
        isVerified := is_verified
        variant := variant
        reviewImages := review_images
        position := position
        helpfulVotes := parse_helpful_votes review_reaction }

/-! ### `_parse_reviews_from_soup` and `scrape_product_reviews`

A detected review block either parses normally or raises inside
`_parse_single_review`; the generator catches the latter
(`except Exception: continue`), which we model with a `raises`
constructor. A fetched page is `none` when `_fetch_html_with_retries`
exhausted its attempts, otherwise the list of review blocks the
(external) markup engine detects in its body. -/

inductive BlockStep where
  | ok (b : ReviewBlock)
  | raises
deriving DecidableEq

def isOkStep : BlockStep → Bool
  | .ok _ => true
  | .raises => false

/-- The generator loop of `_parse_reviews_from_soup`: positions advance
only when a record is emitted; a raising block is skipped. -/
def parseBlocksGo (asin : List Char) : Nat → List BlockStep → List Review
  | _, [] => []
  | pos, .raises :: rest => parseBlocksGo asin pos rest
  | pos, .ok b :: rest =>
    match parse_single_review asin pos b with
    | none => parseBlocksGo asin pos rest
    | some r => r :: parseBlocksGo asin (pos + 1) rest

/-- reviews scraper `_parse_reviews_from_soup`. -/
def parse_reviews_from_soup (asin : List Char) (startPos : Nat)
    (blocks : List BlockStep) : List Review :=
  parseBlocksGo asin startPos blocks

/-- The pagination loop of `scrape_product_reviews`, given the count
already collected and the current page number.  Returns the reviews
collected from this page on together with the trace of page numbers
passed to the fetcher. -/
def scrapeGo (pages : Nat → Option (List BlockStep)) (asin : List Char)
    (maxR : Nat) (cnt : Nat) (page : Nat) : List Review × List Nat :=
  if cnt < maxR then
    match pages page with
    | none => ([], [page])
    | some blocks =>
      let revs := parse_reviews_from_soup asin (cnt + 1) blocks
      if _h : revs.length = 0 then ([], [page])
      else if _hm : maxR ≤ cnt + revs.length then (revs, [page])
      else
        let r := scrapeGo pages asin maxR (cnt + revs.length) (page + 1)
        (revs ++ r.1, page :: r.2)
  else ([], [])
termination_by maxR - cnt
decreasing_by
  simp_wf
  have hb : revs.length = (parse_reviews_from_soup asin (cnt + 1) blocks).length := rfl
  omega

/-- reviews scraper `scrape_product_reviews`: resolve the ASIN (fatal
`ValueError` when impossible, before any fetch), run the pagination
loop from an empty collection and page 1, truncate to `max_reviews`.
The second component of the `.ok` payload is the trace of fetched page
numbers. -/
def scrape_product_reviews (pages : Nat → Option (List BlockStep)) (u : Url)
    (maxReviews : Nat) : Except (List Char) (List Review × List Nat) :=
  match extract_asin u.path u.query with
  | none => .error ("Could not determine ASIN from product URL".data)
  | some asin =>
    let r := scrapeGo pages asin maxReviews 0 1
    .ok (r.1.take maxReviews, r.2)

/-! ### Specification-side predicates

These follow the wording of the spec (and of the amended claims), stated
positionally / existentially, independent of the scanning code above.
The claim theorems connect the two. -/

/-- An identifier of the format required by cases 1-4 of the resolver:
exactly 10 characters from `[A-Z0-9]`. -/
def ValidId (id : List Char) : Prop :=
  id.length = 10 ∧ ∀ c ∈ id, isUpperAlnum c = true

/-- At offset `i` of `path` stands the literal `lit` followed by the valid
identifier `id`. -/
def LitShapeAt (lit path : List Char) (i : Nat) (id : List Char) : Prop :=
  (∃ rest, path.drop i = lit ++ id ++ rest) ∧ ValidId id

/-- `id` is the leftmost such identifier for `lit` in `path`. -/
def LitFirstShape (lit path id : List Char) : Prop :=
  ∃ i, i ≤ path.length ∧ LitShapeAt lit path i id ∧
    ∀ j, j < i → ∀ id2, ¬ LitShapeAt lit path j id2

def NoLitShape (lit path : List Char) : Prop :=
  ∀ i id, ¬ LitShapeAt lit path i id

/-- At offset `i` of the query component stands `?` or `&`, then `ASIN=`,
then the valid identifier `id`. -/
def QueryShapeAt (query : List Char) (i : Nat) (id : List Char) : Prop :=
  (∃ c rest, query.drop i = c :: (asinEqLit ++ id ++ rest) ∧ (c = '?' ∨ c = '&')) ∧
    ValidId id

def QueryFirstShape (query id : List Char) : Prop :=
  ∃ i, i ≤ query.length ∧ QueryShapeAt query i id ∧
    ∀ j, j < i → ∀ id2, ¬ QueryShapeAt query j id2

def NoQueryShape (query : List Char) : Prop :=
  ∀ i id, ¬ QueryShapeAt query i id

/-- The original claim's reading of case 4: the query component has a
parameter named `ASIN` whose value is the valid identifier `id`
(parameters are the `&`-separated pieces of the query). -/
def HasAsinParam (query id : List Char) : Prop :=
  (asinEqLit ++ id) ∈ splitOnPred (fun c => c = '&') query ∧ ValidId id

/-- A path segment accepted by the fallback scan: exactly 10 characters,
all alphanumeric. -/
def GoodSeg (s : List Char) : Prop :=
  s.length = 10 ∧ ∀ c ∈ s, isAsciiAlnum c = true

/-- `id` is the first acceptable segment scanning the path segments from
the end. -/
def LastGoodSeg (path id : List Char) : Prop :=
  GoodSeg id ∧ ∃ pre post, pathSegments path = pre ++ id :: post ∧
    ∀ s ∈ post, ¬ GoodSeg s

def NoGoodSeg (path : List Char) : Prop :=
  ∀ s ∈ pathSegments path, ¬ GoodSeg s

/-- A nonempty run of decimal digits. -/
def DigitRun (ds : List Char) : Prop :=
  ds ≠ [] ∧ ∀ c ∈ ds, isDigitC c = true

/-- A nonempty run of whitespace. -/
def SpaceRun (ss : List Char) : Prop :=
  ss ≠ [] ∧ ∀ c ∈ ss, isPySpace c = true

/-- Case-insensitive equality of character lists. -/
def CIEq (a b : List Char) : Prop :=
  a.map Char.toLower = b.map Char.toLower

/-- `l` begins with a case-insensitive occurrence of `pat`. -/
def StartsCI (pat l : List Char) : Prop :=
  ∃ p2 rest, l = p2 ++ rest ∧ CIEq p2 pat

def peopleFull : List Char := peoplLit ++ 'e' :: foundLit

def peoplFull : List Char := peoplLit ++ foundLit

/-- The start of `l`: an integer (a nonempty digit run), whitespace, then
case-insensitively `people found this helpful` or
`peopl found this helpful`; `n` is the integer's value. -/
def HelpfulShape (l : List Char) (n : Nat) : Prop :=
  ∃ ds ss tail, l = ds ++ ss ++ tail ∧ DigitRun ds ∧ SpaceRun ss ∧
    (StartsCI peopleFull tail ∨ StartsCI peoplFull tail) ∧ n = natOfDigits ds

def HelpfulShapeAt (text : List Char) (i : Nat) (n : Nat) : Prop :=
  HelpfulShape (text.drop i) n

def HelpfulFirstShape (text : List Char) (n : Nat) : Prop :=
  ∃ i, i ≤ text.length ∧ HelpfulShapeAt text i n ∧
    ∀ j, j < i → ∀ m, ¬ HelpfulShapeAt text j m

def NoHelpfulShape (text : List Char) : Prop :=
  ∀ i n, ¬ HelpfulShapeAt text i n

def personFull : List Char := "person found this helpful".data

/-- The original claim's reading of the helpful-vote pattern, with the
singular `person` tolerated alongside `people`. -/
def ClaimHelpfulShape (l : List Char) (n : Nat) : Prop :=
  ∃ ds ss tail, l = ds ++ ss ++ tail ∧ DigitRun ds ∧ SpaceRun ss ∧
    (StartsCI peopleFull tail ∨ StartsCI personFull tail) ∧ n = natOfDigits ds

/-- `text` contains `pat` case-insensitively. -/
def ContainsCIShape (pat text : List Char) : Prop :=
  ∃ i, StartsCI pat (text.drop i)

/-- The `\s+out of\s+5` tail: whitespace, case-insensitively `out of`
(single inner space), whitespace, then the digit `5`. -/
def RatingTailShape (r : List Char) : Prop :=
  ∃ ss mid ss2 rest, r = ss ++ mid ++ ss2 ++ '5' :: rest ∧
    SpaceRun ss ∧ CIEq mid outOfLit ∧ SpaceRun ss2

/-- The start of `l`: a digit `0`-`5`, optionally `.` and one more digit,
then the `out of 5` tail; `v` is the matched number's value. -/
def RatingShape (l : List Char) (v : ℚ) : Prop :=
  ∃ c tail, l = c :: tail ∧ isRatingDigit c = true ∧
    ((∃ d tail2, tail = '.' :: d :: tail2 ∧ isDigitC d = true ∧
        RatingTailShape tail2 ∧ v = digitVal c + digitVal d / 10) ∨
      (RatingTailShape tail ∧ v = digitVal c))

def RatingShapeAt (text : List Char) (i : Nat) (v : ℚ) : Prop :=
  RatingShape (text.drop i) v

def NoRatingShape (text : List Char) : Prop :=
  ∀ i v, ¬ RatingShapeAt text i v

/-- An attribute value that is present and non-empty, else nothing. -/
def nonEmptyAttr : Option (List Char) → Option (List Char)
  | some s => if s = [] then none else some s
  | none => none

/-- Modelled from the amended claim: the entry contributed by one image
tile node is its `src` when present and non-empty, else its `data-src`
when present and non-empty, else nothing. -/
def imageEntrySpec (img : ImgNode) : Option (List Char) :=
  match nonEmptyAttr img.src with
  | some s => some s
  | none => nonEmptyAttr img.dataSrc

/-! ### Generic lemmas about the scanners -/

theorem findFirst_eq_some_of {α : Type} (f : List Char → Option α) (l : List Char) :
    ∀ (i : Nat) (a : α), i ≤ l.length → f (l.drop i) = some a →
      (∀ j, j < i → f (l.drop j) = none) → findFirst f l = some a := by
  induction l with
  | nil =>
    intro i a hi ha _
    have hz : i = 0 := by simpa using hi
    subst hz
    simpa [findFirst] using ha
  | cons c rest ih =>
    intro i a hi ha hnone
    cases i with
    | zero =>
      simp only [List.drop_zero] at ha
      simp [findFirst, ha]
    | succ i' =>
      have h0 : f (c :: rest) = none := by simpa using hnone 0 (Nat.succ_pos i')
      have hstep : findFirst f (c :: rest) = findFirst f rest := by
        simp [findFirst, h0]
      rw [hstep]
      exact ih i' a (by simpa using hi) (by simpa using ha)
        (fun j hj => by simpa using hnone (j + 1) (by omega))

theorem findFirst_eq_none_of {α : Type} (f : List Char → Option α) (l : List Char) :
    (∀ i, i ≤ l.length → f (l.drop i) = none) → findFirst f l = none := by
  induction l with
  | nil =>
    intro h
    simpa [findFirst] using h 0 (by simp)
  | cons c rest ih =>
    intro h
    have h0 : f (c :: rest) = none := by simpa using h 0 (by simp)
    have hstep : findFirst f (c :: rest) = findFirst f rest := by
      simp [findFirst, h0]
    rw [hstep]
    exact ih fun i hi => by simpa using h (i + 1) (by simpa using hi)

theorem dropLit_eq_some_iff : ∀ (lit l r : List Char),
    dropLit lit l = some r ↔ l = lit ++ r := by
  intro lit
  induction lit with
  | nil =>
    intro l r
    simp [dropLit, eq_comm]
  | cons p ps ih =>
    intro l r
    cases l with
    | nil => simp [dropLit]
    | cons c cs =>
      by_cases hpc : p = c
      · subst hpc
        simp [dropLit, ih]
      · simp only [dropLit, if_neg hpc]
        constructor
        · intro h
          exact absurd h (by simp)
        · intro h
          rw [List.cons_append] at h
          exact absurd (List.head_eq_of_cons_eq h).symm hpc

theorem matchCI_eq_some_iff : ∀ (pat l r : List Char),
    matchCI pat l = some r ↔ ∃ p2, l = p2 ++ r ∧ CIEq p2 pat := by
  intro pat
  induction pat with
  | nil =>
    intro l r
    simp only [matchCI, Option.some.injEq, CIEq]
    constructor
    · rintro rfl
      exact ⟨[], rfl, rfl⟩
    · rintro ⟨p2, hl, hm⟩
      have : p2 = [] := by simpa using hm
      simp [this] at hl
      exact hl
  | cons p ps ih =>
    intro l r
    cases l with
    | nil =>
      simp only [matchCI]
      constructor
      · intro h
        exact absurd h (by simp)
      · rintro ⟨p2, hl, hm⟩
        have hne : p2 ≠ [] := by
          intro hp2
          simp [hp2, CIEq] at hm
        cases p2 with
        | nil => exact absurd rfl hne
        | cons a as => simp at hl
    | cons c cs =>
      by_cases h : lowerEq p c = true
      · have hl : c.toLower = p.toLower := by
          have := h
          simp [lowerEq] at this
          exact this.symm
        rw [matchCI, if_pos h]
        rw [ih]
        constructor
        · rintro ⟨p2, hcs, hm⟩
          refine ⟨c :: p2, by simp [hcs], ?_⟩
          simp only [CIEq, List.map_cons, hl, List.cons.injEq]
          exact ⟨trivial, hm⟩
        · rintro ⟨p2, hcl, hm⟩
          cases p2 with
          | nil => simp [CIEq] at hm
          | cons a as =>
            simp only [List.cons_append, List.cons.injEq] at hcl
            obtain ⟨rfl, hcs⟩ := hcl
            simp only [CIEq, List.map_cons, List.cons.injEq] at hm
            exact ⟨as, hcs, hm.2⟩
      · rw [matchCI, if_neg h]
        constructor
        · intro hh
          exact absurd hh (by simp)
        · rintro ⟨p2, hcl, hm⟩
          cases p2 with
          | nil => simp [CIEq] at hm
          | cons a as =>
            simp only [List.cons_append, List.cons.injEq] at hcl
            simp only [CIEq, List.map_cons, List.cons.injEq] at hm
            exact absurd (by simp [lowerEq, hcl.1 ▸ hm.1]) h

theorem startsWithCI_iff (pat l : List Char) :
    startsWithCI pat l = true ↔ StartsCI pat l := by
  rw [startsWithCI, Option.isSome_iff_exists]
  constructor
  · rintro ⟨r, hr⟩
    obtain ⟨p2, hl, hm⟩ := (matchCI_eq_some_iff pat l r).mp hr
    exact ⟨p2, r, hl, hm⟩
  · rintro ⟨p2, rest, hl, hm⟩
    exact ⟨rest, (matchCI_eq_some_iff pat l rest).mpr ⟨p2, hl, hm⟩⟩

theorem containsCI_iff (pat : List Char) : ∀ l : List Char,
    containsCI pat l = true ↔ ContainsCIShape pat l := by
  intro l
  induction l with
  | nil =>
    simp only [containsCI, ContainsCIShape]
    constructor
    · intro h
      refine ⟨0, [], [], by simp, ?_⟩
      have : pat = [] := by simpa [List.isEmpty_iff] using h
      simp [this, CIEq]
    · rintro ⟨i, p2, rest, hl, hm⟩
      simp only [List.drop_nil] at hl
      obtain ⟨h2, h3⟩ := List.append_eq_nil.mp hl.symm
      subst h2
      simp only [CIEq, List.map_nil] at hm
      have : pat = [] := by simpa using hm.symm
      simp [this, List.isEmpty_iff]
  | cons c rest ih =>
    simp only [containsCI, Bool.or_eq_true]
    rw [startsWithCI_iff, ih]
    constructor
    · rintro (h | ⟨i, hi⟩)
      · exact ⟨0, by simpa using h⟩
      · exact ⟨i + 1, by simpa using hi⟩
    · rintro ⟨i, hi⟩
      cases i with
      | zero => exact Or.inl (by simpa using hi)
      | succ i' => exact Or.inr ⟨i', by simpa using hi⟩

theorem find?_reverse_eq_some_of {α : Type} (p : α → Bool) (pre post : List α) (a : α)
    (hp : p a = true) (hpost : ∀ x ∈ post, p x = false) :
    ((pre ++ a :: post).reverse).find? p = some a := by
  rw [List.reverse_append, List.reverse_cons, List.append_assoc, List.singleton_append]
  rw [List.find?_append]
  have hnone : post.reverse.find? p = none := by
    rw [List.find?_eq_none]
    intro x hx
    simp [hpost x (List.mem_reverse.mp hx)]
  simp [hnone, List.find?, hp]

/-! ### Lemmas about `clean_text` -/

theorem dropWhile_length_le {α : Type} (p : α → Bool) (l : List α) :
    (l.dropWhile p).length ≤ l.length := by
  induction l with
  | nil => simp
  | cons x xs ih =>
    by_cases hx : p x = true
    · rw [List.dropWhile_cons_of_pos hx]
      exact le_trans ih (by simp)
    · simp [List.dropWhile_cons_of_neg (by simpa using hx)]

theorem takeWhile_all {α : Type} (p : α → Bool) (l : List α)
    (h : ∀ c ∈ l, p c = true) : l.takeWhile p = l := by
  induction l with
  | nil => rfl
  | cons x xs ih =>
    rw [List.takeWhile_cons_of_pos (h x (by simp))]
    rw [ih fun c hc => h c (by simp [hc])]

theorem dropWhile_all {α : Type} (p : α → Bool) (l : List α)
    (h : ∀ c ∈ l, p c = true) : l.dropWhile p = [] := by
  induction l with
  | nil => rfl
  | cons x xs ih =>
    rw [List.dropWhile_cons_of_pos (h x (by simp))]
    exact ih fun c hc => h c (by simp [hc])

theorem splitOnPred_good (sep : Char → Bool) :
    ∀ (n : Nat) (l : List Char), l.length ≤ n →
      ∀ w ∈ splitOnPred sep l, w ≠ [] ∧ ∀ c ∈ w, sep c = false := by
  intro n
  induction n with
  | zero =>
    intro l hl
    have : l = [] := by
      cases l with
      | nil => rfl
      | cons c r => simp at hl
    simp [this, splitOnPred]
  | succ n ih =>
    intro l hl
    cases l with
    | nil => simp [splitOnPred]
    | cons c rest =>
      rw [splitOnPred]
      by_cases hc : sep c = true
      · rw [if_pos hc]
        exact ih rest (by simp at hl; omega)
      · rw [if_neg hc]
        intro w hw
        rcases List.mem_cons.mp hw with rfl | hw2
        · refine ⟨by simp, ?_⟩
          intro d hd
          rcases List.mem_cons.mp hd with rfl | hd2
          · simpa using hc
          · have := List.mem_takeWhile_imp hd2
            simpa using this
        · have hlen : (rest.dropWhile fun d => !sep d).length ≤ n := by
            have := dropWhile_length_le (fun d => !sep d) rest
            simp at hl
            omega
          exact ih _ hlen w hw2

theorem splitOnPred_single (sep : Char → Bool) (w : List Char) (hne : w ≠ [])
    (hall : ∀ c ∈ w, sep c = false) : splitOnPred sep w = [w] := by
  cases w with
  | nil => exact absurd rfl hne
  | cons c w2 =>
    rw [splitOnPred]
    rw [if_neg (by simp [hall c (by simp)])]
    have ht : w2.takeWhile (fun d => !sep d) = w2 :=
      takeWhile_all _ _ fun d hd => by simp [hall d (by simp [hd])]
    have hd : w2.dropWhile (fun d => !sep d) = [] :=
      dropWhile_all _ _ fun d hd => by simp [hall d (by simp [hd])]
    rw [ht, hd]
    simp [splitOnPred]

theorem splitOnPred_word_cons (sep : Char → Bool) (w : List Char) (y : Char)
    (t : List Char) (hne : w ≠ []) (hall : ∀ c ∈ w, sep c = false)
    (hy : sep y = true) :
    splitOnPred sep (w ++ y :: t) = w :: splitOnPred sep t := by
  cases w with
  | nil => exact absurd rfl hne
  | cons c w2 =>
    rw [List.cons_append, splitOnPred]
    rw [if_neg (by simp [hall c (by simp)])]
    have ht : (w2 ++ y :: t).takeWhile (fun d => !sep d) = w2 := by
      rw [List.takeWhile_append_of_pos
        (fun d hd => by simp [hall d (by simp [hd])])]
      rw [List.takeWhile_cons_of_neg (by simp [hy])]
      simp
    have hd : (w2 ++ y :: t).dropWhile (fun d => !sep d) = y :: t := by
      rw [List.dropWhile_append_of_pos
        (fun d hd => by simp [hall d (by simp [hd])])]
      rw [List.dropWhile_cons_of_neg (by simp [hy])]
    rw [ht, hd]
    rw [splitOnPred, if_pos hy]

/-- Splitting undoes a single-space join of whitespace-free nonempty words. -/
theorem pySplit_joinSpace : ∀ ws : List (List Char),
    (∀ w ∈ ws, w ≠ [] ∧ ∀ c ∈ w, isPySpace c = false) →
    pySplit (joinSpace ws) = ws := by
  intro ws
  induction ws with
  | nil => intro _; simp [pySplit, joinSpace, splitOnPred]
  | cons w vs ih =>
    intro hgood
    cases vs with
    | nil =>
      have hw := hgood w (by simp)
      simpa [pySplit, joinSpace] using splitOnPred_single isPySpace w hw.1 hw.2
    | cons v vs2 =>
      have hw := hgood w (by simp)
      rw [joinSpace, pySplit]
      rw [splitOnPred_word_cons isPySpace w ' ' (joinSpace (v :: vs2)) hw.1 hw.2
        (by decide)]
      have hih := ih fun u hu => hgood u (by simp [hu])
      rw [pySplit] at hih
      rw [hih]

theorem joinSpace_head (c : Char) (w2 : List Char) :
    ∀ ws : List (List Char), ∃ t, joinSpace ((c :: w2) :: ws) = c :: t := by
  intro ws
  cases ws with
  | nil => exact ⟨w2, rfl⟩
  | cons v vs => exact ⟨w2 ++ ' ' :: joinSpace (v :: vs), rfl⟩

theorem joinSpace_reverse_head : ∀ ws : List (List Char), ws ≠ [] →
    (∀ w ∈ ws, w ≠ [] ∧ ∀ c ∈ w, isPySpace c = false) →
    ∃ c t, (joinSpace ws).reverse = c :: t ∧ isPySpace c = false := by
  intro ws
  induction ws with
  | nil => intro h; exact absurd rfl h
  | cons w vs ih =>
    intro _ hgood
    cases vs with
    | nil =>
      have hw := hgood w (by simp)
      have hrev : w.reverse ≠ [] := by simpa using hw.1
      cases hr : w.reverse with
      | nil => exact absurd hr hrev
      | cons c t =>
        have hc : c ∈ w := by
          rw [← List.mem_reverse, hr]
          simp
        exact ⟨c, t, by simpa [joinSpace] using hr, hw.2 c hc⟩
    | cons v vs2 =>
      obtain ⟨c, t, hrev, hc⟩ := ih (by simp) fun u hu => hgood u (by simp [hu])
      refine ⟨c, t ++ ' ' :: w.reverse, ?_, hc⟩
      rw [joinSpace, List.reverse_append, List.reverse_cons, List.append_assoc,
        hrev]
      simp

theorem pyStrip_joinSpace (ws : List (List Char))
    (hgood : ∀ w ∈ ws, w ≠ [] ∧ ∀ c ∈ w, isPySpace c = false) :
    pyStrip (joinSpace ws) = joinSpace ws := by
  cases ws with
  | nil => rfl
  | cons w vs =>
    have hw := hgood w (by simp)
    have hdrop : (joinSpace (w :: vs)).dropWhile isPySpace = joinSpace (w :: vs) := by
      cases w with
      | nil => exact absurd rfl hw.1
      | cons c w2 =>
        obtain ⟨t, ht⟩ := joinSpace_head c w2 vs
        rw [ht, List.dropWhile_cons_of_neg (by simp [hw.2 c (by simp)])]
    obtain ⟨c, t, hrev, hc⟩ := joinSpace_reverse_head (w :: vs) (by simp) hgood
    rw [pyStrip, hdrop, hrev, List.dropWhile_cons_of_neg (by simp [hc]), ← hrev]
    simp

theorem clean_text_eq_join (l : List Char) :
    clean_text l = joinSpace (pySplit l) := by
  rw [clean_text]
  exact pyStrip_joinSpace (pySplit l)
    (splitOnPred_good isPySpace l.length l (le_refl _))

/-- C10: `clean` is idempotent — for every input string `t`,
`clean(clean(t)) = clean(t)`: the output of `clean_text` (whitespace runs
collapsed to single spaces, ends trimmed) is a fixed point of `clean_text`. -/
theorem clean_text_idempotent (l : List Char) :
    clean_text (clean_text l) = clean_text l := by
  have hgood : ∀ w ∈ pySplit l, w ≠ [] ∧ ∀ c ∈ w, isPySpace c = false :=
    splitOnPred_good isPySpace l.length l (le_refl _)
  rw [clean_text_eq_join (clean_text l), clean_text_eq_join l]
  rw [pySplit_joinSpace (pySplit l) hgood]

/-! ### Lemmas about `extract_asin` -/

theorem matchLit10_eq_some_iff (lit l id : List Char) :
    matchLit10 lit l = some id ↔
      (∃ rest, l = lit ++ id ++ rest) ∧ ValidId id := by
  cases hdl : dropLit lit l with
  | none =>
    simp only [matchLit10, hdl]
    constructor
    · intro h
      exact absurd h (by simp)
    · rintro ⟨⟨rest, hrest⟩, hv⟩
      have h2 := (dropLit_eq_some_iff lit l (id ++ rest)).mpr
        (by rw [hrest, List.append_assoc])
      rw [hdl] at h2
      exact absurd h2 (by simp)
  | some r =>
    simp only [matchLit10, hdl]
    have hr : l = lit ++ r := (dropLit_eq_some_iff lit l r).mp hdl
    constructor
    · intro h
      by_cases h1 : 10 ≤ r.length
      · rw [if_pos h1] at h
        by_cases h2 : (r.take 10).all isUpperAlnum = true
        · rw [if_pos h2] at h
          have hid : r.take 10 = id := by simpa using h
          refine ⟨⟨r.drop 10, ?_⟩, ?_, ?_⟩
          · rw [hr, ← hid, List.append_assoc, List.take_append_drop]
          · rw [← hid]
            simp [List.length_take]
            omega
          · intro c hc
            rw [← hid] at hc
            exact List.all_eq_true.mp h2 c hc
        · rw [if_neg h2] at h
          exact absurd h (by simp)
      · rw [if_neg h1] at h
        exact absurd h (by simp)
    · rintro ⟨⟨rest, hrest⟩, hlen, hall⟩
      have hre : r = id ++ rest := by
        have h2 : lit ++ r = lit ++ (id ++ rest) := by
          rw [← hr, hrest, List.append_assoc]
        exact List.append_cancel_left h2
      have htake : r.take 10 = id := by
        rw [hre]
        exact List.take_left' hlen
      rw [if_pos (by rw [hre]; simp; omega), if_pos (by
        rw [htake]
        exact List.all_eq_true.mpr hall), htake]

theorem matchLit10_eq_none_of (lit l : List Char)
    (h : ∀ id, ¬ ((∃ rest, l = lit ++ id ++ rest) ∧ ValidId id)) :
    matchLit10 lit l = none := by
  cases hm : matchLit10 lit l with
  | none => rfl
  | some a => exact absurd ((matchLit10_eq_some_iff lit l a).mp hm) (h a)

theorem matchAsinQueryAt_eq_some_iff (l id : List Char) :
    matchAsinQueryAt l = some id ↔
      (∃ c rest, l = c :: (asinEqLit ++ id ++ rest) ∧ (c = '?' ∨ c = '&')) ∧
        ValidId id := by
  cases l with
  | nil =>
    simp only [matchAsinQueryAt]
    constructor
    · intro h
      exact absurd h (by simp)
    · rintro ⟨⟨c, rest, hl, _⟩, _⟩
      exact absurd hl (by simp)
  | cons c cs =>
    rw [matchAsinQueryAt]
    by_cases hc : (c = '?' || c = '&') = true
    · rw [if_pos hc]
      rw [matchLit10_eq_some_iff]
      constructor
      · rintro ⟨⟨rest, hrest⟩, hv⟩
        exact ⟨⟨c, rest, by rw [hrest], by simpa using hc⟩, hv⟩
      · rintro ⟨⟨c2, rest, hl, _⟩, hv⟩
        simp only [List.cons.injEq] at hl
        exact ⟨⟨rest, hl.2⟩, hv⟩
    · rw [if_neg hc]
      constructor
      · intro h
        exact absurd h (by simp)
      · rintro ⟨⟨c2, rest, hl, hor⟩, _⟩
        simp only [List.cons.injEq] at hl
        rw [hl.1] at hc
        rcases hor with h2 | h2 <;> simp [h2] at hc

theorem matchAsinQueryAt_eq_none_of (l : List Char)
    (h : ∀ id, ¬ ((∃ c rest, l = c :: (asinEqLit ++ id ++ rest) ∧
      (c = '?' ∨ c = '&')) ∧ ValidId id)) :
    matchAsinQueryAt l = none := by
  cases hm : matchAsinQueryAt l with
  | none => rfl
  | some a => exact absurd ((matchAsinQueryAt_eq_some_iff l a).mp hm) (h a)

theorem isValidSeg_iff (s : List Char) : isValidSeg s = true ↔ GoodSeg s := by
  simp [isValidSeg, GoodSeg, List.all_eq_true]

theorem litFirst_findFirst (lit path id : List Char)
    (h : LitFirstShape lit path id) :
    findFirst (matchLit10 lit) path = some id := by
  obtain ⟨i, hi, hat, hfirst⟩ := h
  apply findFirst_eq_some_of (matchLit10 lit) path i id hi
  · exact (matchLit10_eq_some_iff lit (path.drop i) id).mpr hat
  · intro j hj
    exact matchLit10_eq_none_of lit (path.drop j) fun id2 => hfirst j hj id2

theorem noLit_findFirst (lit path : List Char) (h : NoLitShape lit path) :
    findFirst (matchLit10 lit) path = none := by
  apply findFirst_eq_none_of
  intro i _
  exact matchLit10_eq_none_of lit (path.drop i) fun id2 => h i id2

theorem queryFirst_findFirst (query id : List Char)
    (h : QueryFirstShape query id) :
    findFirst matchAsinQueryAt query = some id := by
  obtain ⟨i, hi, hat, hfirst⟩ := h
  apply findFirst_eq_some_of matchAsinQueryAt query i id hi
  · exact (matchAsinQueryAt_eq_some_iff (query.drop i) id).mpr hat
  · intro j hj
    exact matchAsinQueryAt_eq_none_of (query.drop j) fun id2 => hfirst j hj id2

theorem noQuery_findFirst (query : List Char) (h : NoQueryShape query) :
    findFirst matchAsinQueryAt query = none := by
  apply findFirst_eq_none_of
  intro i _
  exact matchAsinQueryAt_eq_none_of (query.drop i) fun id2 => h i id2

theorem lastGoodSeg_find (path id : List Char) (h : LastGoodSeg path id) :
    (pathSegments path).reverse.find? isValidSeg = some id := by
  obtain ⟨hgood, pre, post, hsegs, hpost⟩ := h
  rw [hsegs]
  apply find?_reverse_eq_some_of isValidSeg pre post id
    ((isValidSeg_iff id).mpr hgood)
  intro x hx
  by_cases hv : isValidSeg x = true
  · exact absurd ((isValidSeg_iff x).mp hv) (hpost x hx)
  · simpa using hv

theorem noGoodSeg_find (path : List Char) (h : NoGoodSeg path) :
    (pathSegments path).reverse.find? isValidSeg = none := by
  rw [List.find?_eq_none]
  intro x hx
  intro hv
  exact h x (List.mem_reverse.mp hx) ((isValidSeg_iff x).mp hv)

/-- C2 counterexample: the URL with path `/` and query `ASIN=B0ABCDEFGH`
contains a valid 10-character uppercase alphanumeric identifier as an ASIN
query parameter (one of the claim's supported positions), yet `resolve`
returns not-found instead of that identifier: the source regex
`[?&]ASIN=` requires a `?` or `&` before the parameter name, and URL
parsing strips the `?` of a leading query parameter. -/
theorem extract_asin_first_query_param_cex :
    HasAsinParam "ASIN=B0ABCDEFGH".data "B0ABCDEFGH".data ∧
      extract_asin "/".data "ASIN=B0ABCDEFGH".data = none := by
  constructor
  · constructor
    · simp +decide [splitOnPred, asinEqLit]
    · exact ⟨by decide, by decide⟩
  · simp +decide [extract_asin, findFirst, matchAsinQueryAt, matchLit10,
      dropLit, pathSegments, splitOnPred, isValidSeg]

/-- C2 amended: for every URL (path and query component), `resolve` tries
the five shapes in priority order -- path segment after `/dp/`, after
`/gp/product/`, after `/product-reviews/`, an ASIN query parameter
*preceded by `?` or `&` inside the query component*, then a 10-character
alphanumeric path segment scanning from the end -- returns the leftmost
identifier of the first shape that matches, and not-found when none
match. -/
theorem extract_asin_priority (path query : List Char) :
    (∀ id, LitFirstShape dpLit path id → extract_asin path query = some id) ∧
    (NoLitShape dpLit path →
      ∀ id, LitFirstShape gpLit path id → extract_asin path query = some id) ∧
    (NoLitShape dpLit path → NoLitShape gpLit path →
      ∀ id, LitFirstShape prLit path id → extract_asin path query = some id) ∧
    (NoLitShape dpLit path → NoLitShape gpLit path → NoLitShape prLit path →
      ∀ id, QueryFirstShape query id → extract_asin path query = some id) ∧
    (NoLitShape dpLit path → NoLitShape gpLit path → NoLitShape prLit path →
      NoQueryShape query →
      ∀ id, LastGoodSeg path id → extract_asin path query = some id) ∧
    (NoLitShape dpLit path → NoLitShape gpLit path → NoLitShape prLit path →
      NoQueryShape query → NoGoodSeg path → extract_asin path query = none) := by
  refine ⟨?_, ?_, ?_, ?_, ?_, ?_⟩
  · intro id h
    simp [extract_asin, litFirst_findFirst dpLit path id h]
  · intro h1 id h
    simp [extract_asin, noLit_findFirst dpLit path h1,
      litFirst_findFirst gpLit path id h]
  · intro h1 h2 id h
    simp [extract_asin, noLit_findFirst dpLit path h1,
      noLit_findFirst gpLit path h2, litFirst_findFirst prLit path id h]
  · intro h1 h2 h3 id h
    simp [extract_asin, noLit_findFirst dpLit path h1,
      noLit_findFirst gpLit path h2, noLit_findFirst prLit path h3,
      queryFirst_findFirst query id h]
  · intro h1 h2 h3 h4 id h
    simp [extract_asin, noLit_findFirst dpLit path h1,
      noLit_findFirst gpLit path h2, noLit_findFirst prLit path h3,
      noQuery_findFirst query h4, lastGoodSeg_find path id h]
  · intro h1 h2 h3 h4 h5
    simp [extract_asin, noLit_findFirst dpLit path h1,
      noLit_findFirst gpLit path h2, noLit_findFirst prLit path h3,
      noQuery_findFirst query h4, noGoodSeg_find path h5]

/-- Witness for the amended C2 theorem at the concrete URL path
`/dp/B0ABCDEFGH`. -/
theorem extract_asin_priority_witness :
    extract_asin "/dp/B0ABCDEFGH".data [] = some "B0ABCDEFGH".data := by
  apply (extract_asin_priority "/dp/B0ABCDEFGH".data []).1
  refine ⟨0, by simp, ⟨⟨[], by decide⟩, by decide, by decide⟩, ?_⟩
  intro j hj id2
  exact absurd hj (Nat.not_lt_zero j)

/-! ### Character-class and case-insensitivity lemmas -/

theorem isPySpace_elim (c : Char) (h : isPySpace c = true) :
    c = ' ' ∨ c = '\t' ∨ c = '\n' ∨ c = '\r' ∨ c = '\x0b' ∨ c = '\x0c' := by
  simpa [isPySpace, or_assoc] using h

theorem isPySpace_not_digit (c : Char) (h : isPySpace c = true) :
    isDigitC c = false := by
  rcases isPySpace_elim c h with rfl | rfl | rfl | rfl | rfl | rfl <;> decide

theorem isPySpace_toLower_self (c : Char) (h : isPySpace c = true) :
    c.toLower = c := by
  rcases isPySpace_elim c h with rfl | rfl | rfl | rfl | rfl | rfl <;> decide

theorem not_space_of_toLower (c a : Char) (h : c.toLower = a)
    (ha : isPySpace a = false) : isPySpace c = false := by
  by_cases hc : isPySpace c = true
  · rw [isPySpace_toLower_self c hc] at h
    rw [h] at hc
    rw [hc] at ha
    exact absurd ha (by simp)
  · simpa using hc

theorem matchCI_of_CIEq (pat p rest : List Char) (h : CIEq p pat) :
    matchCI pat (p ++ rest) = some rest :=
  (matchCI_eq_some_iff pat (p ++ rest) rest).mpr ⟨p, rfl, h⟩

theorem CIEq_append_split (p a b : List Char) (h : CIEq p (a ++ b)) :
    ∃ pa pb, p = pa ++ pb ∧ CIEq pa a ∧ CIEq pb b := by
  refine ⟨p.take a.length, p.drop a.length, (List.take_append_drop _ p).symm, ?_, ?_⟩
  · rw [CIEq, List.map_take]
    rw [CIEq, List.map_append] at h
    rw [h]
    exact List.take_left' (by simp)
  · rw [CIEq, List.map_drop]
    rw [CIEq, List.map_append] at h
    rw [h]
    have := List.drop_left (a.map Char.toLower) (b.map Char.toLower)
    rwa [List.length_map] at this

theorem CIEq_cons_split (p : List Char) (a : Char) (as : List Char)
    (h : CIEq p (a :: as)) :
    ∃ p0 ps, p = p0 :: ps ∧ p0.toLower = a.toLower ∧ CIEq ps as := by
  cases p with
  | nil => simp [CIEq] at h
  | cons p0 ps =>
    simp only [CIEq, List.map_cons, List.cons.injEq] at h
    exact ⟨p0, ps, rfl, h.1, h.2⟩

/-! ### Lemmas about `parse_helpful_votes` -/

theorem matchHelpfulAt_eq_some_iff (l : List Char) (n : Nat) :
    matchHelpfulAt l = some n ↔ HelpfulShape l n := by
  constructor
  · intro h
    simp only [matchHelpfulAt] at h
    split at h
    · exact absurd h (by simp)
    · rename_i hcond
      split at h
      · exact absurd h (by simp)
      · rename_i r3 hmatch
        split at h
        · rename_i hfound
          simp only [Option.some.injEq] at h
          simp only [Bool.or_eq_true, List.isEmpty_iff] at hcond
          push_neg at hcond
          obtain ⟨p2, hr2, hp2⟩ :=
            (matchCI_eq_some_iff peoplLit _ r3).mp hmatch
          have hsplit : l = l.takeWhile isDigitC ++
              (l.dropWhile isDigitC).takeWhile isPySpace ++
              (l.dropWhile isDigitC).dropWhile isPySpace := by
            rw [List.append_assoc, List.takeWhile_append_dropWhile,
              List.takeWhile_append_dropWhile]
          refine ⟨l.takeWhile isDigitC,
            (l.dropWhile isDigitC).takeWhile isPySpace,
            (l.dropWhile isDigitC).dropWhile isPySpace,
            hsplit,
            ⟨hcond.1, fun c hc => List.mem_takeWhile_imp hc⟩,
            ⟨hcond.2, fun c hc => List.mem_takeWhile_imp hc⟩, ?_, h.symm⟩
          rcases Bool.or_eq_true_iff.mp hfound with hp | hp
          · obtain ⟨r4, hm4⟩ := Option.isSome_iff_exists.mp hp
            obtain ⟨q2, hr3, hq2⟩ :=
              (matchCI_eq_some_iff ('e' :: foundLit) r3 r4).mp hm4
            refine Or.inl ⟨p2 ++ q2, r4, ?_, ?_⟩
            · rw [hr2, hr3, List.append_assoc]
            · rw [CIEq, List.map_append, hp2, hq2, peopleFull, ← List.map_append]
          · obtain ⟨r4, hm4⟩ := Option.isSome_iff_exists.mp hp
            obtain ⟨q2, hr3, hq2⟩ :=
              (matchCI_eq_some_iff foundLit r3 r4).mp hm4
            refine Or.inr ⟨p2 ++ q2, r4, ?_, ?_⟩
            · rw [hr2, hr3, List.append_assoc]
            · rw [CIEq, List.map_append, hp2, hq2, peoplFull, ← List.map_append]
        · exact absurd h (by simp)
  · rintro ⟨ds, ss, tail, hl, ⟨hdne, hdall⟩, ⟨hsne, hsall⟩, hvar, hn⟩
    obtain ⟨s0, ss2, rfl⟩ : ∃ s0 ss2, ss = s0 :: ss2 := by
      cases ss with
      | nil => exact absurd rfl hsne
      | cons a b => exact ⟨a, b, rfl⟩
    have hs0 : isPySpace s0 = true := hsall s0 (by simp)
    have htail0 : ∃ t0 tail2, tail = t0 :: tail2 ∧ isPySpace t0 = false := by
      rcases hvar with ⟨p2, rest, htl, hci⟩ | ⟨p2, rest, htl, hci⟩
      · obtain ⟨t0, ps, rfl, hlow, _⟩ := CIEq_cons_split p2 'p' _ hci
        exact ⟨t0, ps ++ rest, by rw [htl]; rfl,
          not_space_of_toLower t0 'p' (by simpa using hlow) (by decide)⟩
      · obtain ⟨t0, ps, rfl, hlow, _⟩ := CIEq_cons_split p2 'p' _ hci
        exact ⟨t0, ps ++ rest, by rw [htl]; rfl,
          not_space_of_toLower t0 'p' (by simpa using hlow) (by decide)⟩
    obtain ⟨t0, tail2, rfl, ht0⟩ := htail0
    have htake : l.takeWhile isDigitC = ds := by
      rw [hl, List.append_assoc, List.cons_append,
        List.takeWhile_append_of_pos (fun c hc => hdall c hc),
        List.takeWhile_cons_of_neg (by simp [isPySpace_not_digit s0 hs0]),
        List.append_nil]
    have hdrop : l.dropWhile isDigitC = s0 :: (ss2 ++ t0 :: tail2) := by
      rw [hl, List.append_assoc, List.cons_append,
        List.dropWhile_append_of_pos (fun c hc => hdall c hc),
        List.dropWhile_cons_of_neg (by simp [isPySpace_not_digit s0 hs0])]
    have htake2 : (s0 :: (ss2 ++ t0 :: tail2)).takeWhile isPySpace =
        s0 :: ss2 := by
      rw [List.takeWhile_cons_of_pos hs0,
        List.takeWhile_append_of_pos (fun c hc => hsall c (by simp [hc])),
        List.takeWhile_cons_of_neg (by simp [ht0]),
        List.append_nil]
    have hdrop2 : (s0 :: (ss2 ++ t0 :: tail2)).dropWhile isPySpace =
        t0 :: tail2 := by
      rw [List.dropWhile_cons_of_pos hs0,
        List.dropWhile_append_of_pos (fun c hc => hsall c (by simp [hc])),
        List.dropWhile_cons_of_neg (by simp [ht0])]
    simp only [matchHelpfulAt, htake, hdrop, htake2, hdrop2]
    rw [if_neg (by
      simp only [Bool.or_eq_true, List.isEmpty_iff]
      push_neg
      exact ⟨hdne, by simp⟩)]
    rcases hvar with ⟨p2, rest, htl, hci⟩ | ⟨p2, rest, htl, hci⟩
    · obtain ⟨pa, pb, rfl, hcia, hcib⟩ :=
        CIEq_append_split p2 peoplLit ('e' :: foundLit) hci
      have hm1 : matchCI peoplLit (t0 :: tail2) = some (pb ++ rest) := by
        rw [htl, List.append_assoc]
        exact matchCI_of_CIEq peoplLit pa (pb ++ rest) hcia
      simp only [hm1]
      have hm2 : matchCI ('e' :: foundLit) (pb ++ rest) = some rest :=
        matchCI_of_CIEq _ pb rest hcib
      rw [if_pos (by simp [hm2])]
      rw [hn]
    · obtain ⟨pa, pb, rfl, hcia, hcib⟩ :=
        CIEq_append_split p2 peoplLit foundLit hci
      have hm1 : matchCI peoplLit (t0 :: tail2) = some (pb ++ rest) := by
        rw [htl, List.append_assoc]
        exact matchCI_of_CIEq peoplLit pa (pb ++ rest) hcia
      simp only [hm1]
      have hm2 : matchCI foundLit (pb ++ rest) = some rest :=
        matchCI_of_CIEq _ pb rest hcib
      rw [if_pos (by simp [hm2])]
      rw [hn]

theorem ciEq_intro (a b : List Char)
    (h : a.map Char.toLower = b.map Char.toLower) : CIEq a b := h

theorem matchHelpfulAt_eq_none_of (l : List Char)
    (h : ∀ m, ¬ HelpfulShape l m) : matchHelpfulAt l = none := by
  cases hm : matchHelpfulAt l with
  | none => rfl
  | some a => exact absurd ((matchHelpfulAt_eq_some_iff l a).mp hm) (h a)

theorem helpfulShape_nonempty (n : Nat) (h : HelpfulShape [] n) : False := by
  obtain ⟨ds, ss, tail, hl, ⟨hdne, _⟩, _, _, _⟩ := h
  rw [List.append_assoc] at hl
  obtain ⟨h1, _⟩ := List.append_eq_nil.mp hl.symm
  exact hdne h1

theorem containsCIShape_nil (pat : List Char) (hpat : pat ≠ [])
    (h : ContainsCIShape pat []) : False := by
  obtain ⟨i, p2, rest, heq, hci⟩ := h
  simp only [List.drop_nil] at heq
  obtain ⟨h1, _⟩ := List.append_eq_nil.mp heq.symm
  subst h1
  simp only [CIEq, List.map_nil] at hci
  exact hpat (by simpa using hci.symm)

/-- C7 counterexample: `2 person found this helpful` matches the claim's
pattern `<integer> people found this helpful` with the singular `person`
tolerated (value 2), yet `parse_helpful_votes` returns 0, not 2: the `?`
in the source regex `people?` makes only the final `e` optional, so
`person` is not matched, and the separate literal check only recognises
`one person found this helpful`. -/
theorem parse_helpful_votes_person_cex :
    ClaimHelpfulShape "2 person found this helpful".data 2 ∧
      parse_helpful_votes "2 person found this helpful".data = 0 := by
  constructor
  · refine ⟨['2'], [' '], "person found this helpful".data, by decide,
      ⟨by decide, by decide⟩, ⟨by decide, by decide⟩,
      Or.inr ⟨"person found this helpful".data, [], by decide,
        ciEq_intro _ _ (by decide)⟩,
      by decide⟩
  · simp +decide [parse_helpful_votes, findFirst, matchHelpfulAt, matchCI,
      containsCI, startsWithCI, lowerEq, peoplLit, foundLit, onePersonLit,
      isDigitC, isPySpace]

/-- C7 amended: `parse_helpful_votes` returns the integer `N` when the
text matches `<integer> (people|peopl) found this helpful`
(case-insensitive -- the `?` of the source pattern makes only the final
`e` of `people` optional, so the singular `person` is *not* matched by
the numeric pattern); otherwise returns 1 when the text contains
`one person found this helpful` case-insensitively; otherwise returns 0;
and empty input returns 0.  In particular it maps
`21 people found this helpful` to 21, `One person found this helpful`
to 1, and the empty string to 0. -/
theorem parse_helpful_votes_spec (text : List Char) :
    (∀ n, HelpfulFirstShape text n → parse_helpful_votes text = n) ∧
    (NoHelpfulShape text → ContainsCIShape onePersonLit text →
      parse_helpful_votes text = 1) ∧
    (NoHelpfulShape text → ¬ ContainsCIShape onePersonLit text →
      parse_helpful_votes text = 0) ∧
    parse_helpful_votes "21 people found this helpful".data = 21 ∧
    parse_helpful_votes "One person found this helpful".data = 1 ∧
    parse_helpful_votes [] = 0 := by
  refine ⟨?_, ?_, ?_, ?_, ?_, by simp [parse_helpful_votes]⟩
  · intro n h
    obtain ⟨i, hi, hat, hfirst⟩ := h
    cases text with
    | nil =>
      rw [HelpfulShapeAt, List.drop_nil] at hat
      exact absurd hat (fun hh => helpfulShape_nonempty n hh)
    | cons c rest =>
      have hfind : findFirst matchHelpfulAt (c :: rest) = some n :=
        findFirst_eq_some_of matchHelpfulAt (c :: rest) i n hi
          ((matchHelpfulAt_eq_some_iff _ n).mpr hat)
          (fun j hj => matchHelpfulAt_eq_none_of _
            (fun m => hfirst j hj m))
      simp [parse_helpful_votes, hfind]
  · intro hno hcon
    cases text with
    | nil => exact absurd hcon (fun hh => containsCIShape_nil _ (by decide) hh)
    | cons c rest =>
      have hfind : findFirst matchHelpfulAt (c :: rest) = none :=
        findFirst_eq_none_of matchHelpfulAt (c :: rest)
          (fun i _ => matchHelpfulAt_eq_none_of _ (fun m => hno i m))
      have hc : containsCI onePersonLit (c :: rest) = true :=
        (containsCI_iff onePersonLit (c :: rest)).mpr hcon
      simp [parse_helpful_votes, hfind, hc]
  · intro hno hcon
    cases text with
    | nil => simp [parse_helpful_votes]
    | cons c rest =>
      have hfind : findFirst matchHelpfulAt (c :: rest) = none :=
        findFirst_eq_none_of matchHelpfulAt (c :: rest)
          (fun i _ => matchHelpfulAt_eq_none_of _ (fun m => hno i m))
      have hc : containsCI onePersonLit (c :: rest) = false := by
        cases hcc : containsCI onePersonLit (c :: rest) with
        | false => rfl
        | true => exact absurd ((containsCI_iff onePersonLit _).mp hcc) hcon
      simp [parse_helpful_votes, hfind, hc]
  · exact (by
      simp +decide [parse_helpful_votes, findFirst, matchHelpfulAt, matchCI,
        containsCI, startsWithCI, lowerEq, peoplLit, foundLit, onePersonLit,
        isDigitC, isPySpace, natOfDigits])
  · exact (by
      simp +decide [parse_helpful_votes, findFirst, matchHelpfulAt, matchCI,
        containsCI, startsWithCI, lowerEq, peoplLit, foundLit, onePersonLit,
        isDigitC, isPySpace])

/-- Witness for the amended C7 theorem: its first clause applied at
`21 people found this helpful` with the leftmost match at offset 0. -/
theorem parse_helpful_votes_spec_witness :
    parse_helpful_votes "21 people found this helpful".data = 21 := by
  apply (parse_helpful_votes_spec "21 people found this helpful".data).1
  refine ⟨0, by simp, ?_, fun j hj m => absurd hj (Nat.not_lt_zero j)⟩
  refine ⟨"21".data, [' '], "people found this helpful".data, by decide,
    ⟨by decide, by decide⟩, ⟨by decide, by decide⟩,
    Or.inl ⟨"people found this helpful".data, [], by decide,
      ciEq_intro _ _ (by decide)⟩,
    by decide⟩

/-! ### Lemmas about `parse_rating_score` -/

theorem findFirst_eq_some_imp {α : Type} (f : List Char → Option α)
    (l : List Char) (a : α) (h : findFirst f l = some a) :
    ∃ i, f (l.drop i) = some a := by
  induction l with
  | nil => exact ⟨0, by simpa [findFirst] using h⟩
  | cons c rest ih =>
    rw [findFirst] at h
    cases hf : f (c :: rest) with
    | some b =>
      rw [hf] at h
      exact ⟨0, by simpa [hf] using h⟩
    | none =>
      rw [hf] at h
      obtain ⟨i, hi⟩ := ih h
      exact ⟨i + 1, by simpa using hi⟩

theorem findFirst_eq_none_imp {α : Type} (f : List Char → Option α)
    (l : List Char) (h : findFirst f l = none) :
    ∀ i, i ≤ l.length → f (l.drop i) = none := by
  induction l with
  | nil =>
    intro i hi
    have : i = 0 := by simpa using hi
    subst this
    simpa [findFirst] using h
  | cons c rest ih =>
    rw [findFirst] at h
    cases hf : f (c :: rest) with
    | some b => rw [hf] at h; exact absurd h (by simp)
    | none =>
      rw [hf] at h
      intro i hi
      cases i with
      | zero => simpa using hf
      | succ i' => simpa using ih h i' (by simpa using hi)

theorem ratingTail_iff (r : List Char) :
    ratingTail r = true ↔ RatingTailShape r := by
  constructor
  · intro h
    rw [ratingTail] at h
    split at h
    · exact absurd h (by simp)
    · rename_i hne
      split at h
      · exact absurd h (by simp)
      · rename_i r2 hmatch
        split at h
        · exact absurd h (by simp)
        · rename_i hne2
          split at h
          · rename_i rest heq
            obtain ⟨mid, hdw, hmid⟩ :=
              (matchCI_eq_some_iff outOfLit _ r2).mp hmatch
            refine ⟨r.takeWhile isPySpace, mid, r2.takeWhile isPySpace, rest,
              ?_, ⟨by simpa [List.isEmpty_iff] using hne,
                fun c hc => List.mem_takeWhile_imp hc⟩,
              hmid,
              ⟨by simpa [List.isEmpty_iff] using hne2,
                fun c hc => List.mem_takeWhile_imp hc⟩⟩
            calc r = r.takeWhile isPySpace ++ r.dropWhile isPySpace :=
                  (List.takeWhile_append_dropWhile _ _).symm
              _ = r.takeWhile isPySpace ++ (mid ++ r2) := by rw [hdw]
              _ = r.takeWhile isPySpace ++ (mid ++
                    (r2.takeWhile isPySpace ++ r2.dropWhile isPySpace)) := by
                  rw [List.takeWhile_append_dropWhile]
              _ = r.takeWhile isPySpace ++ (mid ++
                    (r2.takeWhile isPySpace ++ ('5' :: rest))) := by rw [heq]
              _ = r.takeWhile isPySpace ++ mid ++ r2.takeWhile isPySpace ++
                    '5' :: rest := by simp [List.append_assoc]
          · exact absurd h (by simp)
  · rintro ⟨ss, mid, ss2, rest, hr, ⟨hsne, hsall⟩, hmid, ⟨hs2ne, hs2all⟩⟩
    obtain ⟨s0, ss', rfl⟩ : ∃ s0 ss', ss = s0 :: ss' := by
      cases ss with
      | nil => exact absurd rfl hsne
      | cons a b => exact ⟨a, b, rfl⟩
    obtain ⟨m0, mid', rfl, hm0, _⟩ := CIEq_cons_split mid 'o' _ hmid
    have hm0s : isPySpace m0 = false :=
      not_space_of_toLower m0 'o' (by simpa using hm0) (by decide)
    have hr' : r = (s0 :: ss') ++ ((m0 :: mid') ++ (ss2 ++ '5' :: rest)) := by
      rw [hr]
      simp [List.append_assoc]
    have htw : r.takeWhile isPySpace = s0 :: ss' := by
      rw [hr', List.cons_append,
        List.takeWhile_cons_of_pos (hsall s0 (by simp)),
        List.takeWhile_append_of_pos (fun c hc => hsall c (by simp [hc])),
        List.cons_append, List.takeWhile_cons_of_neg (by simp [hm0s]),
        List.append_nil]
    have hdw : r.dropWhile isPySpace = (m0 :: mid') ++ (ss2 ++ '5' :: rest) := by
      rw [hr', List.cons_append,
        List.dropWhile_cons_of_pos (hsall s0 (by simp)),
        List.dropWhile_append_of_pos (fun c hc => hsall c (by simp [hc])),
        List.cons_append, List.dropWhile_cons_of_neg (by simp [hm0s])]
    have hmm : matchCI outOfLit ((m0 :: mid') ++ (ss2 ++ '5' :: rest)) =
        some (ss2 ++ '5' :: rest) :=
      matchCI_of_CIEq outOfLit (m0 :: mid') _ hmid
    have htw2 : (ss2 ++ '5' :: rest).takeWhile isPySpace = ss2 := by
      rw [List.takeWhile_append_of_pos (fun c hc => hs2all c hc),
        List.takeWhile_cons_of_neg (by decide), List.append_nil]
    have hdw2 : (ss2 ++ '5' :: rest).dropWhile isPySpace = '5' :: rest := by
      rw [List.dropWhile_append_of_pos (fun c hc => hs2all c hc),
        List.dropWhile_cons_of_neg (by decide)]
    rw [ratingTail, htw, hdw, hmm]
    rw [if_neg (by simp)]
    simp only [htw2, hdw2]
    rw [if_neg (by simp [List.isEmpty_iff, hs2ne])]

theorem ratingTailShape_head (r : List Char) (h : RatingTailShape r) :
    ∃ t0 rr, r = t0 :: rr ∧ isPySpace t0 = true := by
  obtain ⟨ss, mid, ss2, rest, hr, ⟨hsne, hsall⟩, _, _⟩ := h
  obtain ⟨s0, ss', rfl⟩ : ∃ s0 ss', ss = s0 :: ss' := by
    cases ss with
    | nil => exact absurd rfl hsne
    | cons a b => exact ⟨a, b, rfl⟩
  exact ⟨s0, ss' ++ mid ++ ss2 ++ '5' :: rest,
    by rw [hr]; simp [List.append_assoc], hsall s0 (by simp)⟩

theorem matchRatingAt_eq_some_iff (l : List Char) (v : ℚ) :
    matchRatingAt l = some v ↔ RatingShape l v := by
  constructor
  · intro h
    match l with
    | [] => simp [matchRatingAt] at h
    | [c] =>
      simp only [matchRatingAt] at h
      split_ifs at h with h1 h2
      exact ⟨c, [], rfl, h1, Or.inr
        ⟨(ratingTail_iff _).mp h2, by simpa using h.symm⟩⟩
    | [c, r0] =>
      simp only [matchRatingAt] at h
      split_ifs at h with h1 h2
      exact ⟨c, [r0], rfl, h1, Or.inr
        ⟨(ratingTail_iff _).mp h2, by simpa using h.symm⟩⟩
    | c :: r0 :: d :: rest2 =>
      simp only [matchRatingAt] at h
      split_ifs at h with h1 h2 h3 h4 h5
      · subst h2
        exact ⟨c, '.' :: d :: rest2, rfl, h1, Or.inl
          ⟨d, rest2, rfl, h3, (ratingTail_iff _).mp h4, by simpa using h.symm⟩⟩
      · exact ⟨c, r0 :: d :: rest2, rfl, h1, Or.inr
          ⟨(ratingTail_iff _).mp h5, by simpa using h.symm⟩⟩
  · rintro ⟨c, tail, rfl, hc, hcase⟩
    rcases hcase with ⟨d, tail2, rfl, hd, htail, hv⟩ | ⟨htail, hv⟩
    · simp only [matchRatingAt]
      rw [if_pos hc, if_pos trivial, if_pos hd,
        if_pos ((ratingTail_iff _).mpr htail), hv]
    · match tail, htail with
      | [], htail =>
        obtain ⟨t0, rr, heq, _⟩ := ratingTailShape_head [] htail
        exact absurd heq (by simp)
      | [t0], htail =>
        simp only [matchRatingAt]
        rw [if_pos hc, if_pos ((ratingTail_iff _).mpr htail), hv]
      | t0 :: t1 :: ttail, htail =>
        have ht0 : ¬ t0 = '.' := by
          obtain ⟨s0, rr, heq, hsp⟩ := ratingTailShape_head _ htail
          simp only [List.cons.injEq] at heq
          intro hdot
          rw [← heq.1, hdot] at hsp
          exact absurd hsp (by decide)
        simp only [matchRatingAt]
        rw [if_pos hc, if_neg ht0,
          if_pos ((ratingTail_iff _).mpr htail), hv]

theorem matchRatingAt_eq_none_of (l : List Char)
    (h : ∀ v, ¬ RatingShape l v) : matchRatingAt l = none := by
  cases hm : matchRatingAt l with
  | none => rfl
  | some a => exact absurd ((matchRatingAt_eq_some_iff l a).mp hm) (h a)

theorem char_le_toNat {a b : Char} (h : a ≤ b) : a.toNat ≤ b.toNat := h

theorem ratingShape_value (l : List Char) (v : ℚ) (h : RatingShape l v) :
    ∃ a b : Nat, a ≤ 5 ∧ b ≤ 9 ∧ v = (a : ℚ) + (b : ℚ) / 10 := by
  obtain ⟨c, tail, _, hc, hcase⟩ := h
  have h0 : '0'.toNat = 48 := rfl
  have h5 : '5'.toNat = 53 := rfl
  have h9 : '9'.toNat = 57 := rfl
  have hcb : c.toNat - '0'.toNat ≤ 5 := by
    simp only [isRatingDigit, Bool.and_eq_true, decide_eq_true_eq] at hc
    have h1 := char_le_toNat hc.1
    have h2 := char_le_toNat hc.2
    omega
  rcases hcase with ⟨d, _, _, hd, _, hv⟩ | ⟨_, hv⟩
  · have hdb : d.toNat - '0'.toNat ≤ 9 := by
      simp only [isDigitC, Bool.and_eq_true, decide_eq_true_eq] at hd
      have h1 := char_le_toNat hd.1
      have h2 := char_le_toNat hd.2
      omega
    exact ⟨c.toNat - '0'.toNat, d.toNat - '0'.toNat, hcb, hdb,
      by rw [hv]; simp [digitVal]⟩
  · exact ⟨c.toNat - '0'.toNat, 0, hcb, by omega,
      by rw [hv]; simp [digitVal]⟩

/-- C8 counterexample: `5.9 out of 5` is matched by the source pattern
`([0-5](?:\.\d)?)\s+out of\s+5` (the fractional digit is unrestricted),
so `parse_rating_score` returns 5.9, which lies outside the claimed
range 0.0-5.0. -/
theorem parse_rating_score_above5_cex :
    parse_rating_score "5.9 out of 5".data = some (59 / 10) ∧
      ¬ ((59 : ℚ) / 10 ≤ 5) := by
  constructor
  · simp +decide [parse_rating_score, findFirst, matchRatingAt, ratingTail,
      matchCI, lowerEq, outOfLit, isRatingDigit, isDigitC, isPySpace,
      digitVal]
    norm_num
  · norm_num

/-- C8 amended: whenever `parse_rating_score` returns a value, that value
is of the form `a + b/10` with `a ≤ 5` and `b ≤ 9`, hence it lies between
0.0 and 5.9 inclusive (not 5.0: the fractional digit of the pattern is
unrestricted); it is absent exactly when the text is empty or contains no
`<digit>[.<digit>] out of 5` match with the leading digit in range 0-5. -/
theorem parse_rating_score_spec (text : List Char) :
    (∀ v, parse_rating_score text = some v →
      0 ≤ v ∧ v ≤ 59 / 10 ∧
        ∃ a b : Nat, a ≤ 5 ∧ b ≤ 9 ∧ v = (a : ℚ) + (b : ℚ) / 10) ∧
    (parse_rating_score text = none ↔ text = [] ∨ NoRatingShape text) := by
  constructor
  · intro v h
    cases text with
    | nil => simp [parse_rating_score] at h
    | cons c rest =>
      rw [parse_rating_score, if_neg (by simp)] at h
      obtain ⟨i, hi⟩ := findFirst_eq_some_imp _ _ _ h
      obtain ⟨a, b, ha, hb, hv⟩ :=
        ratingShape_value _ v ((matchRatingAt_eq_some_iff _ v).mp hi)
      refine ⟨?_, ?_, a, b, ha, hb, hv⟩
      · rw [hv]
        positivity
      · rw [hv]
        have ha2 : (a : ℚ) ≤ 5 := by exact_mod_cast ha
        have hb2 : (b : ℚ) ≤ 9 := by exact_mod_cast hb
        linarith
  · constructor
    · intro h
      cases text with
      | nil => exact Or.inl rfl
      | cons c rest =>
        rw [parse_rating_score, if_neg (by simp)] at h
        refine Or.inr ?_
        intro i v hshape
        by_cases hii : i ≤ (c :: rest).length
        · have hn := findFirst_eq_none_imp _ _ h i hii
          have := (matchRatingAt_eq_some_iff _ v).mpr hshape
          rw [hn] at this
          exact absurd this (by simp)
        · have hdrop : (c :: rest).drop i = [] := by
            apply List.drop_eq_nil_of_le
            omega
          rw [RatingShapeAt, hdrop] at hshape
          obtain ⟨c2, t2, heq, _⟩ := hshape
          exact absurd heq (by simp)
    · intro h
      rcases h with rfl | hno
      · simp [parse_rating_score]
      · cases text with
        | nil => simp [parse_rating_score]
        | cons c rest =>
          rw [parse_rating_score, if_neg (by simp)]
          exact findFirst_eq_none_of _ _
            (fun i _ => matchRatingAt_eq_none_of _ (fun v => hno i v))

/-- Witness for the amended C8 theorem at `4.0 out of 5 stars`. -/
theorem parse_rating_score_spec_witness :
    0 ≤ (4 : ℚ) ∧ (4 : ℚ) ≤ 59 / 10 ∧
      ∃ a b : Nat, a ≤ 5 ∧ b ≤ 9 ∧ (4 : ℚ) = (a : ℚ) + (b : ℚ) / 10 :=
  (parse_rating_score_spec "4.0 out of 5 stars".data).1 4 (by
    simp +decide [parse_rating_score, findFirst, matchRatingAt, ratingTail,
      matchCI, lowerEq, outOfLit, isRatingDigit, isDigitC, isPySpace,
      digitVal])

/-! ### Lemmas about `_parse_single_review` -/

theorem emptiness_cond_iff (b : ReviewBlock) :
    ((reviewDescriptionOf b).isEmpty && !pyTruthyRating (ratingScoreOf b)) = true ↔
      reviewDescriptionOf b = [] ∧
        (ratingScoreOf b = none ∨ ratingScoreOf b = some 0) := by
  rw [Bool.and_eq_true, List.isEmpty_iff]
  cases hrs : ratingScoreOf b with
  | none => simp [pyTruthyRating]
  | some v =>
    by_cases hv : v = 0
    · simp [pyTruthyRating, hv]
    · simp [pyTruthyRating, hv]

/-- C3 counterexample: a review block whose star-rating text reads
`0 out of 5 stars` (the rating parses to the value 0.0) and whose body is
empty is discarded by the extractor, although the claim says a record is
assembled whenever the rating parses to some value, including 0.0: the
source guard `not review_description and not rating_score` treats the
float 0.0 as falsy, exactly like an absent rating. -/
theorem parse_single_review_zero_rating_cex :
    ratingScoreOf
        ⟨some "0 out of 5 stars".data, none, none, none, none, none, none,
          none, none, none, []⟩ = some 0 ∧
      parse_single_review "PRODUCTAS1".data 1
        ⟨some "0 out of 5 stars".data, none, none, none, none, none, none,
          none, none, none, []⟩ = none := by
  constructor
  · simp +decide [ratingScoreOf, ratingTextOf, parse_rating_score, findFirst,
      matchRatingAt, ratingTail, matchCI, lowerEq, outOfLit, isRatingDigit,
      isDigitC, isPySpace, digitVal]
  · simp +decide [parse_single_review, ratingScoreOf, ratingTextOf,
      reviewDescriptionOf, parse_rating_score, findFirst, matchRatingAt,
      ratingTail, matchCI, lowerEq, outOfLit, isRatingDigit, isDigitC,
      isPySpace, digitVal, pyTruthyRating]

/-- C3 amended: the extractor returns absent exactly when the cleaned body
text is empty AND the rating is absent *or equal to 0.0* (Python
truthiness conflates the two); in every other case it assembles and
returns a record carrying the provided identifier and position. -/
theorem parse_single_review_validity (asin : List Char) (pos : Nat)
    (b : ReviewBlock) :
    (parse_single_review asin pos b = none ↔
      reviewDescriptionOf b = [] ∧
        (ratingScoreOf b = none ∨ ratingScoreOf b = some 0)) ∧
    (∀ r, parse_single_review asin pos b = some r →
      r.productAsin = asin ∧ r.position = pos ∧
        r.ratingScore = ratingScoreOf b ∧
        r.reviewDescription = reviewDescriptionOf b) := by
  constructor
  · rw [← emptiness_cond_iff b]
    simp only [parse_single_review]
    by_cases hc : ((reviewDescriptionOf b).isEmpty &&
        !pyTruthyRating (ratingScoreOf b)) = true
    · rw [if_pos hc]
      simp [hc]
    · rw [if_neg hc]
      simp [hc]
  · intro r hr
    simp only [parse_single_review] at hr
    by_cases hc : ((reviewDescriptionOf b).isEmpty &&
        !pyTruthyRating (ratingScoreOf b)) = true
    · rw [if_pos hc] at hr
      exact absurd hr (by simp)
    · rw [if_neg hc] at hr
      have := Option.some.inj hr
      rw [← this]
      exact ⟨rfl, rfl, rfl, rfl⟩

/-- Witness for the amended C3 theorem: a block with body text `x` is
kept, with the given identifier and position copied into the record. -/
theorem parse_single_review_validity_witness :
    ∃ r, parse_single_review "PRODUCTAS1".data 7
        ⟨none, none, none, none, none, none, some ['x'], none, none, none,
          []⟩ = some r ∧
      r.productAsin = "PRODUCTAS1".data ∧ r.position = 7 := by
  cases hr : parse_single_review "PRODUCTAS1".data 7
      ⟨none, none, none, none, none, none, some ['x'], none, none, none,
        []⟩ with
  | none =>
    have := ((parse_single_review_validity "PRODUCTAS1".data 7
      ⟨none, none, none, none, none, none, some ['x'], none, none, none,
        []⟩).1).mp hr
    revert this
    simp +decide [reviewDescriptionOf, clean_text, pySplit, splitOnPred,
      isPySpace, joinSpace, pyStrip]
  | some r =>
    have h2 := ((parse_single_review_validity "PRODUCTAS1".data 7
      ⟨none, none, none, none, none, none, some ['x'], none, none, none,
        []⟩).2) r hr
    exact ⟨r, rfl, h2.1, h2.2.1⟩

/-! ### Lemmas about image extraction -/

theorem imageEntry_pointwise (img : ImgNode) :
    (match pyOrStr img.src img.dataSrc with
      | some s => if s.isEmpty then none else some s
      | none => none) = imageEntrySpec img := by
  rcases img with ⟨src, dsrc⟩
  cases src with
  | none =>
    cases dsrc with
    | none => rfl
    | some d =>
      by_cases hd : d = [] <;>
        simp [pyOrStr, imageEntrySpec, nonEmptyAttr, hd, List.isEmpty_iff]
  | some s =>
    by_cases hs : s = []
    · cases dsrc with
      | none => simp [pyOrStr, imageEntrySpec, nonEmptyAttr, hs]
      | some d =>
        by_cases hd : d = [] <;>
          simp [pyOrStr, imageEntrySpec, nonEmptyAttr, hs, hd,
            List.isEmpty_iff]
    · simp [pyOrStr, imageEntrySpec, nonEmptyAttr, hs, List.isEmpty_iff]

/-- C9 counterexample: an image tile whose `src` attribute is present but
empty and whose `data-src` is `y` contributes the entry `y`, not the
`src` value the claim prescribes when both attributes are present: the
source uses Python `or`, under which an empty string falls through. -/
theorem image_src_empty_cex :
    (⟨some [], some ['y']⟩ : ImgNode).src = some [] ∧
      (⟨some [], some ['y']⟩ : ImgNode).dataSrc = some ['y'] ∧
      imageSrcsOf [⟨some [], some ['y']⟩] = [['y']] := by
  refine ⟨rfl, rfl, ?_⟩
  decide

/-- C9 amended: the extracted image list contains, in document order, one
entry per image tile node whose chosen value is non-empty: the node's
`src` when present and non-empty, otherwise its `data-src` when present
and non-empty; nodes with neither a non-empty `src` nor a non-empty
`data-src` contribute no entry. -/
theorem imageSrcs_spec (tiles : List ImgNode) :
    imageSrcsOf tiles = tiles.filterMap imageEntrySpec := by
  induction tiles with
  | nil => rfl
  | cons img rest ih =>
    rw [imageSrcsOf, List.filterMap_cons, List.filterMap_cons,
      imageEntry_pointwise img]
    rw [imageSrcsOf] at ih
    simp only [ih]

/-! ### Lemmas about `_fetch_html_with_retries` -/

theorem fetchGo_all_fail (d : ℚ) (oc : Nat → Attempt) :
    ∀ ks : List Nat, (∀ k ∈ ks, ∀ b, oc k ≠ .response 200 b) →
      fetchGo d oc ks = ⟨none, ks.map (fun k : Nat => d * (k : ℚ)), ks⟩ := by
  intro ks
  induction ks with
  | nil => intro _; rfl
  | cons k rest ih =>
    intro h
    rw [fetchGo]
    cases hk : oc k with
    | response code body =>
      have hc : ¬ code = 200 := by
        intro hc
        subst hc
        exact h k (by simp) body hk
      dsimp only
      rw [if_neg hc, ih fun j hj b => h j (by simp [hj]) b]
      simp
    | failure =>
      dsimp only
      rw [ih fun j hj b => h j (by simp [hj]) b]
      simp

theorem fetchGo_success (d : ℚ) (oc : Nat → Attempt) (k : Nat) (body : List Char)
    (hk : oc k = .response 200 body) :
    ∀ pre ks : List Nat, (∀ j ∈ pre, ∀ b, oc j ≠ .response 200 b) →
      fetchGo d oc (pre ++ k :: ks) =
        ⟨some body, pre.map (fun j : Nat => d * (j : ℚ)), pre ++ [k]⟩ := by
  intro pre
  induction pre with
  | nil =>
    intro ks _
    simp [fetchGo, hk]
  | cons p pre' ih =>
    intro ks h
    rw [List.cons_append, fetchGo]
    cases hp : oc p with
    | response code b2 =>
      have hc : ¬ code = 200 := by
        intro hc
        subst hc
        exact h p (by simp) b2 hp
      dsimp only
      rw [if_neg hc, ih ks fun j hj b => h j (by simp [hj]) b]
      simp
    | failure =>
      dsimp only
      rw [ih ks fun j hj b => h j (by simp [hj]) b]
      simp

theorem fetchGo_attempts_le (d : ℚ) (oc : Nat → Attempt) :
    ∀ ks : List Nat, (fetchGo d oc ks).attempts.length ≤ ks.length := by
  intro ks
  induction ks with
  | nil => simp [fetchGo]
  | cons k rest ih =>
    rw [fetchGo]
    cases oc k with
    | response code body =>
      by_cases hc : code = 200
      · dsimp only
        rw [if_pos hc]
        simp
      · dsimp only
        rw [if_neg hc]
        simpa using ih
    | failure =>
      dsimp only
      simpa using ih

theorem fetchGo_result_from (d : ℚ) (oc : Nat → Attempt) :
    ∀ (ks : List Nat) (b : List Char), (fetchGo d oc ks).result = some b →
      ∃ k ∈ ks, oc k = .response 200 b := by
  intro ks
  induction ks with
  | nil =>
    intro b hb
    exact absurd hb (by simp [fetchGo])
  | cons k rest ih =>
    intro b hb
    rw [fetchGo] at hb
    cases hk : oc k with
    | response code body =>
      rw [hk] at hb
      dsimp only at hb
      by_cases hc : code = 200
      · rw [if_pos hc] at hb
        subst hc
        refine ⟨k, by simp, ?_⟩
        rw [hk]
        simpa using hb
      · rw [if_neg hc] at hb
        obtain ⟨j, hj, hjr⟩ := ih b hb
        exact ⟨j, by simp [hj], hjr⟩
    | failure =>
      rw [hk] at hb
      dsimp only at hb
      obtain ⟨j, hj, hjr⟩ := ih b hb
      exact ⟨j, by simp [hj], hjr⟩

theorem range'_one_split (k n : Nat) (h1 : 1 ≤ k) (h2 : k ≤ n) :
    List.range' 1 n = List.range' 1 (k - 1) ++ k :: List.range' (k + 1) (n - k) := by
  have ha : List.range' 1 (k - 1) ++ List.range' (1 + (k - 1)) (n - (k - 1)) =
      List.range' 1 n := by
    have := List.range'_append 1 (k - 1) (n - (k - 1)) 1
    simp only [Nat.one_mul] at this
    rw [this]
    congr 1
    omega
  have hb : List.range' (1 + (k - 1)) (n - (k - 1)) =
      k :: List.range' (k + 1) (n - k) := by
    have hk1 : 1 + (k - 1) = k := by omega
    have hn : n - (k - 1) = (n - k) + 1 := by omega
    rw [hk1, hn]
    simpa using List.range'_succ k (n - k) 1
  rw [← ha, hb]

/-- C4: for every call of the page fetcher with `retry_count = n` and
backoff base `d`: it makes at most `n` GET attempts; if the `k`-th
attempt (1-based) is the first whose response has status 200, the call
ends immediately with that body after attempts `1..k` and sleeps
`d*1, ..., d*(k-1)`; if every attempt yields a non-200 status or a
transport error, the call returns not-found (never raising, never a
non-200 body) after all `n` attempts, having slept `d*1, ..., d*n` --
the wait occurs even after the final failing attempt; and any returned
body comes from an attempt whose response status was 200. -/
theorem fetch_html_with_retries_spec (n : Nat) (d : ℚ) (oc : Nat → Attempt) :
    (fetch_html_with_retries n d oc).attempts.length ≤ n ∧
    (∀ k body, 1 ≤ k → k ≤ n → oc k = .response 200 body →
      (∀ j, 1 ≤ j → j < k → ∀ b2, oc j ≠ .response 200 b2) →
      fetch_html_with_retries n d oc =
        ⟨some body, (List.range' 1 (k - 1)).map (fun j : Nat => d * (j : ℚ)),
          List.range' 1 k⟩) ∧
    ((∀ k, 1 ≤ k → k ≤ n → ∀ b2, oc k ≠ .response 200 b2) →
      fetch_html_with_retries n d oc =
        ⟨none, (List.range' 1 n).map (fun j : Nat => d * (j : ℚ)),
          List.range' 1 n⟩) ∧
    (∀ body, (fetch_html_with_retries n d oc).result = some body →
      ∃ k, 1 ≤ k ∧ k ≤ n ∧ oc k = .response 200 body) := by
  refine ⟨?_, ?_, ?_, ?_⟩
  · have := fetchGo_attempts_le d oc (List.range' 1 n)
    rw [fetch_html_with_retries]
    rw [List.length_range' 1 1 n] at this
    exact this
  · intro k body hk1 hkn hk hfirst
    rw [fetch_html_with_retries, range'_one_split k n hk1 hkn]
    rw [fetchGo_success d oc k body hk (List.range' 1 (k - 1))
      (List.range' (k + 1) (n - k)) (fun j hj b => by
        rw [List.mem_range'_1] at hj
        exact hfirst j hj.1 (by omega) b)]
    have : List.range' 1 (k - 1) ++ [k] = List.range' 1 k := by
      have h0 := List.range'_append 1 (k - 1) 1 1
      simp only [Nat.one_mul] at h0
      have h1 : 1 + (k - 1) = k := by omega
      have h2 : 1 + (k - 1) = k := h1
      rw [h1] at h0
      simpa [Nat.add_comm, h2] using h0
    rw [this]
  · intro hall
    rw [fetch_html_with_retries, fetchGo_all_fail d oc (List.range' 1 n)
      (fun j hj b => by
        rw [List.mem_range'_1] at hj
        exact hall j hj.1 (by omega) b)]
  · intro body hb
    rw [fetch_html_with_retries] at hb
    obtain ⟨k, hk, hkr⟩ := fetchGo_result_from d oc (List.range' 1 n) body hb
    rw [List.mem_range'_1] at hk
    exact ⟨k, hk.1, by omega, hkr⟩

/-- Witness for the C4 theorem: with two attempts where the first fails
with a transport error and the second returns status 200 with body `h`,
the fetcher returns that body after attempts 1 and 2 and a single sleep
of `d * 1`. -/
theorem fetch_html_with_retries_spec_witness :
    fetch_html_with_retries 2 1
        (fun k => if k = 2 then .response 200 ['h'] else .failure) =
      ⟨some ['h'], [1 * (1 : ℚ)], [1, 2]⟩ := by
  have h := (fetch_html_with_retries_spec 2 1
      (fun k => if k = 2 then .response 200 ['h'] else .failure)).2.1
      2 ['h'] (by omega) (by omega) (by simp)
      (fun j h1 h2 b2 => by
        have : j = 1 := by omega
        subst this
        simp)
  rw [h]
  rfl

/-! ### Lemmas about the pagination loop -/

theorem parse_single_review_pos (asin : List Char) (pos : Nat) (b : ReviewBlock)
    (r : Review) (h : parse_single_review asin pos b = some r) :
    r.position = pos := by
  simp only [parse_single_review] at h
  by_cases hc : ((reviewDescriptionOf b).isEmpty &&
      !pyTruthyRating (ratingScoreOf b)) = true
  · rw [if_pos hc] at h
    exact absurd h (by simp)
  · rw [if_neg hc] at h
    rw [← Option.some.inj h]

theorem parse_single_review_none_indep (asin : List Char) (s t : Nat)
    (b : ReviewBlock) (h : parse_single_review asin s b = none) :
    parse_single_review asin t b = none := by
  simp only [parse_single_review] at h ⊢
  by_cases hc : ((reviewDescriptionOf b).isEmpty &&
      !pyTruthyRating (ratingScoreOf b)) = true
  · rw [if_pos hc]
  · rw [if_neg hc] at h
    exact absurd h (by simp)

theorem parseBlocksGo_positions (asin : List Char) :
    ∀ (blocks : List BlockStep) (start : Nat),
      (parseBlocksGo asin start blocks).map (fun r => r.position) =
        List.range' start (parseBlocksGo asin start blocks).length := by
  intro blocks
  induction blocks with
  | nil => intro start; rfl
  | cons step rest ih =>
    intro start
    cases step with
    | raises =>
      simp only [parseBlocksGo]
      exact ih start
    | ok b =>
      simp only [parseBlocksGo]
      cases hb : parse_single_review asin start b with
      | none => exact ih start
      | some r =>
        simp only [List.map_cons, List.length_cons,
          parse_single_review_pos asin start b r hb]
        rw [ih (start + 1)]
        have := List.range'_succ start (parseBlocksGo asin (start + 1) rest).length 1
        simp only [Nat.one_mul] at this
        rw [← this]

theorem parseBlocksGo_length_indep (asin : List Char) :
    ∀ (blocks : List BlockStep) (s t : Nat),
      (parseBlocksGo asin s blocks).length =
        (parseBlocksGo asin t blocks).length := by
  intro blocks
  induction blocks with
  | nil => intro s t; rfl
  | cons step rest ih =>
    intro s t
    cases step with
    | raises =>
      simp only [parseBlocksGo]
      exact ih s t
    | ok b =>
      simp only [parseBlocksGo]
      cases hb : parse_single_review asin s b with
      | none =>
        rw [parse_single_review_none_indep asin s t b hb]
        exact ih s t
      | some r =>
        cases hb2 : parse_single_review asin t b with
        | none =>
          exact absurd (parse_single_review_none_indep asin t s b hb2)
            (by simp [hb])
        | some r2 =>
          simp only [List.length_cons]
          rw [ih (s + 1) (t + 1)]

theorem parseBlocksGo_filter (asin : List Char) :
    ∀ (blocks : List BlockStep) (start : Nat),
      parseBlocksGo asin start (blocks.filter isOkStep) =
        parseBlocksGo asin start blocks := by
  intro blocks
  induction blocks with
  | nil => intro start; rfl
  | cons step rest ih =>
    intro start
    cases step with
    | raises =>
      rw [List.filter_cons_of_neg (by simp [isOkStep])]
      simp only [parseBlocksGo]
      exact ih start
    | ok b =>
      rw [List.filter_cons_of_pos (by simp [isOkStep])]
      simp only [parseBlocksGo]
      cases parse_single_review asin start b with
      | none => exact ih start
      | some r => rw [ih (start + 1)]

theorem parse_reviews_positions (asin : List Char) (blocks : List BlockStep)
    (start : Nat) :
    (parse_reviews_from_soup asin start blocks).map (fun r => r.position) =
      List.range' start (parse_reviews_from_soup asin start blocks).length :=
  parseBlocksGo_positions asin blocks start

theorem scrapeGo_stop (pages : Nat → Option (List BlockStep)) (asin : List Char)
    (maxR cnt page : Nat) (h : ¬ cnt < maxR) :
    scrapeGo pages asin maxR cnt page = ([], []) := by
  rw [scrapeGo, if_neg h]

theorem scrapeGo_fetch_fail (pages : Nat → Option (List BlockStep))
    (asin : List Char) (maxR cnt page : Nat) (hlt : cnt < maxR)
    (hp : pages page = none) :
    scrapeGo pages asin maxR cnt page = ([], [page]) := by
  rw [scrapeGo, if_pos hlt, hp]

theorem scrapeGo_empty_page (pages : Nat → Option (List BlockStep))
    (asin : List Char) (maxR cnt page : Nat) (blocks : List BlockStep)
    (hlt : cnt < maxR) (hp : pages page = some blocks)
    (hz : (parse_reviews_from_soup asin (cnt + 1) blocks).length = 0) :
    scrapeGo pages asin maxR cnt page = ([], [page]) := by
  rw [scrapeGo, if_pos hlt, hp]
  dsimp only
  rw [dif_pos hz]

theorem scrapeGo_last (pages : Nat → Option (List BlockStep)) (asin : List Char)
    (maxR cnt page : Nat) (blocks : List BlockStep) (hlt : cnt < maxR)
    (hp : pages page = some blocks)
    (hz : (parse_reviews_from_soup asin (cnt + 1) blocks).length ≠ 0)
    (hm : maxR ≤ cnt + (parse_reviews_from_soup asin (cnt + 1) blocks).length) :
    scrapeGo pages asin maxR cnt page =
      (parse_reviews_from_soup asin (cnt + 1) blocks, [page]) := by
  rw [scrapeGo, if_pos hlt, hp]
  dsimp only
  rw [dif_neg hz, dif_pos hm]

theorem scrapeGo_step (pages : Nat → Option (List BlockStep)) (asin : List Char)
    (maxR cnt page : Nat) (blocks : List BlockStep) (hlt : cnt < maxR)
    (hp : pages page = some blocks)
    (hz : (parse_reviews_from_soup asin (cnt + 1) blocks).length ≠ 0)
    (hm : ¬ maxR ≤ cnt + (parse_reviews_from_soup asin (cnt + 1) blocks).length) :
    scrapeGo pages asin maxR cnt page =
      (parse_reviews_from_soup asin (cnt + 1) blocks ++
        (scrapeGo pages asin maxR
          (cnt + (parse_reviews_from_soup asin (cnt + 1) blocks).length)
          (page + 1)).1,
        page :: (scrapeGo pages asin maxR
          (cnt + (parse_reviews_from_soup asin (cnt + 1) blocks).length)
          (page + 1)).2) := by
  rw [scrapeGo, if_pos hlt, hp]
  dsimp only
  rw [dif_neg hz, dif_neg hm]

theorem range'_take : ∀ (m n s : Nat),
    (List.range' s m).take n = List.range' s (min n m) := by
  intro m
  induction m with
  | zero => intro n s; simp
  | succ m ih =>
    intro n s
    have hsucc := List.range'_succ s m 1
    simp only [Nat.one_mul] at hsucc
    rw [hsucc]
    cases n with
    | zero => simp
    | succ n' =>
      rw [List.take_cons (Nat.succ_pos n')]
      simp only [Nat.succ_sub_one]
      rw [ih n' (s + 1)]
      have : min (n' + 1) (m + 1) = min n' m + 1 := by omega
      rw [this]
      have h2 := List.range'_succ s (min n' m) 1
      simp only [Nat.one_mul] at h2
      rw [h2]

theorem scrapeGo_positions (pages : Nat → Option (List BlockStep))
    (asin : List Char) (maxR : Nat) :
    ∀ (fuel cnt page : Nat), maxR - cnt ≤ fuel →
      ((scrapeGo pages asin maxR cnt page).1).map (fun r => r.position) =
        List.range' (cnt + 1) (scrapeGo pages asin maxR cnt page).1.length := by
  intro fuel
  induction fuel with
  | zero =>
    intro cnt page hfu
    rw [scrapeGo_stop pages asin maxR cnt page (by omega)]
    rfl
  | succ f ih =>
    intro cnt page hfu
    by_cases hlt : cnt < maxR
    · cases hp : pages page with
      | none =>
        rw [scrapeGo_fetch_fail pages asin maxR cnt page hlt hp]
        rfl
      | some blocks =>
        by_cases hz : (parse_reviews_from_soup asin (cnt + 1) blocks).length = 0
        · rw [scrapeGo_empty_page pages asin maxR cnt page blocks hlt hp hz]
          rfl
        · by_cases hm : maxR ≤ cnt +
              (parse_reviews_from_soup asin (cnt + 1) blocks).length
          · rw [scrapeGo_last pages asin maxR cnt page blocks hlt hp hz hm]
            exact parse_reviews_positions asin blocks (cnt + 1)
          · rw [scrapeGo_step pages asin maxR cnt page blocks hlt hp hz hm]
            simp only [List.map_append, List.length_append]
            rw [parse_reviews_positions asin blocks (cnt + 1)]
            rw [ih (cnt + (parse_reviews_from_soup asin (cnt + 1) blocks).length)
              (page + 1) (by omega)]
            have := List.range'_append (cnt + 1)
              (parse_reviews_from_soup asin (cnt + 1) blocks).length
              (scrapeGo pages asin maxR
                (cnt + (parse_reviews_from_soup asin (cnt + 1) blocks).length)
                (page + 1)).1.length 1
            simp only [Nat.one_mul] at this
            have harg : cnt + 1 +
                (parse_reviews_from_soup asin (cnt + 1) blocks).length =
                cnt + (parse_reviews_from_soup asin (cnt + 1) blocks).length +
                  1 := by omega
            rw [harg] at this
            rw [this]
            congr 1
            omega
    · rw [scrapeGo_stop pages asin maxR cnt page hlt]
      rfl

/-- C6: in every scrape session, the sequence of position values of the
returned records is exactly `1, 2, ..., length`: globally unique,
strictly increasing, starting at 1, and continuing across page
boundaries (never reset per page), reflecting the order of appearance of
the emitted records across all fetched pages. -/
theorem scrape_positions_globally_increasing
    (pages : Nat → Option (List BlockStep)) (u : Url) (maxR : Nat)
    (res : List Review) (tr : List Nat)
    (h : scrape_product_reviews pages u maxR = .ok (res, tr)) :
    res.map (fun r => r.position) = List.range' 1 res.length := by
  rw [scrape_product_reviews] at h
  cases ha : extract_asin u.path u.query with
  | none =>
    rw [ha] at h
    exact absurd h (by simp)
  | some asin =>
    rw [ha] at h
    dsimp only at h
    have hpair := Except.ok.inj h
    have hres : res = ((scrapeGo pages asin maxR 0 1).1).take maxR :=
      (congrArg Prod.fst hpair).symm
    rw [hres, List.map_take,
      scrapeGo_positions pages asin maxR maxR 0 1 (by omega),
      List.length_take, range'_take]

/-- Witness for the C6 theorem: a scrape whose first fetch fails returns
the empty record list, whose position sequence is `range' 1 0`. -/
theorem scrape_positions_globally_increasing_witness :
    (([] : List Review)).map (fun r => r.position) =
      List.range' 1 (([] : List Review)).length := by
  apply scrape_positions_globally_increasing (fun _ => none)
    ⟨"/dp/B0ABCDEFGH".data, []⟩ 3 [] [1]
  have h1 : extract_asin "/dp/B0ABCDEFGH".data [] =
      some "B0ABCDEFGH".data := by
    simp +decide [extract_asin, findFirst, matchLit10, dropLit]
  rw [scrape_product_reviews, h1]
  dsimp only
  rw [scrapeGo_fetch_fail (fun _ => none) "B0ABCDEFGH".data 3 0 1
    (by omega) rfl]
  rfl

/-- C1: for every scrape whose identifier resolves, the returned sequence
is the collected records truncated to `max_count` (so never longer than
`max_count`); and in the two-page scenario -- page 1 yields 5 valid
records, page 2 yields 3, `max_count = 6` -- the scrape returns exactly
6 records with positions `1..6` and fetches exactly pages 1 and 2 (no
third page). -/
theorem scrape_two_page_truncation (pages : Nat → Option (List BlockStep))
    (u : Url) (asin : List Char) (ha : extract_asin u.path u.query = some asin) :
    (∀ maxR, scrape_product_reviews pages u maxR =
      .ok (((scrapeGo pages asin maxR 0 1).1).take maxR,
        (scrapeGo pages asin maxR 0 1).2)) ∧
    (∀ maxR res tr, scrape_product_reviews pages u maxR = .ok (res, tr) →
      res.length ≤ maxR) ∧
    (∀ b1 b2, pages 1 = some b1 → pages 2 = some b2 →
      (parse_reviews_from_soup asin 1 b1).length = 5 →
      (parse_reviews_from_soup asin 1 b2).length = 3 →
      ∃ res, scrape_product_reviews pages u 6 = .ok (res, [1, 2]) ∧
        res.length = 6 ∧
        res.map (fun r => r.position) = List.range' 1 6 ∧
        res = ((scrapeGo pages asin 6 0 1).1).take 6) := by
  have hgen : ∀ maxR, scrape_product_reviews pages u maxR =
      .ok (((scrapeGo pages asin maxR 0 1).1).take maxR,
        (scrapeGo pages asin maxR 0 1).2) := by
    intro maxR
    rw [scrape_product_reviews, ha]
  refine ⟨hgen, ?_, ?_⟩
  · intro maxR res tr h
    rw [hgen maxR] at h
    have hres : res = ((scrapeGo pages asin maxR 0 1).1).take maxR :=
      (congrArg Prod.fst (Except.ok.inj h)).symm
    rw [hres, List.length_take]
    omega
  · intro b1 b2 h1 h2 c1 c2
    have c1' : (parse_reviews_from_soup asin (0 + 1) b1).length = 5 := by
      simpa using c1
    have c2' : (parse_reviews_from_soup asin (5 + 1) b2).length = 3 := by
      have := parseBlocksGo_length_indep asin b2 6 1
      simpa [parse_reviews_from_soup] using this.trans c2
    have e2 : scrapeGo pages asin 6 5 2 =
        (parse_reviews_from_soup asin (5 + 1) b2, [2]) :=
      scrapeGo_last pages asin 6 5 2 b2 (by omega) h2 (by omega) (by omega)
    have e1 : scrapeGo pages asin 6 0 1 =
        (parse_reviews_from_soup asin (0 + 1) b1 ++
          (scrapeGo pages asin 6
            (0 + (parse_reviews_from_soup asin (0 + 1) b1).length) 2).1,
          1 :: (scrapeGo pages asin 6
            (0 + (parse_reviews_from_soup asin (0 + 1) b1).length) 2).2) :=
      scrapeGo_step pages asin 6 0 1 b1 (by omega) h1 (by omega) (by omega)
    rw [c1'] at e1
    have h05 : (0 : Nat) + 5 = 5 := rfl
    rw [h05, e2] at e1
    refine ⟨((scrapeGo pages asin 6 0 1).1).take 6, ?_, ?_, ?_, rfl⟩
    · rw [hgen 6, e1]
    · rw [e1]
      simp only [List.length_take, List.length_append]
      omega
    · rw [List.map_take,
        scrapeGo_positions pages asin 6 6 0 1 (by omega), range'_take]
      rw [e1]
      simp only [List.length_append, c1', c2']
      norm_num

/-- Witness for the C1 theorem: five body-bearing blocks on page 1 and
three on page 2, scraped with `max_count = 6`. -/
theorem scrape_two_page_truncation_witness :
    ∃ res, scrape_product_reviews
        (fun p => if p = 1 then
            some (List.replicate 5 (.ok ⟨none, none, none, none, none, none,
              some ['x'], none, none, none, []⟩))
          else if p = 2 then
            some (List.replicate 3 (.ok ⟨none, none, none, none, none, none,
              some ['x'], none, none, none, []⟩))
          else none)
        ⟨"/dp/B0ABCDEFGH".data, []⟩ 6 = .ok (res, [1, 2]) ∧
      res.length = 6 ∧
      res.map (fun r => r.position) = List.range' 1 6 := by
  have h := (scrape_two_page_truncation
      (fun p => if p = 1 then
          some (List.replicate 5 (.ok ⟨none, none, none, none, none, none,
            some ['x'], none, none, none, []⟩))
        else if p = 2 then
          some (List.replicate 3 (.ok ⟨none, none, none, none, none, none,
            some ['x'], none, none, none, []⟩))
        else none)
      ⟨"/dp/B0ABCDEFGH".data, []⟩ "B0ABCDEFGH".data
      (by simp +decide [extract_asin, findFirst, matchLit10, dropLit])).2.2
      (List.replicate 5 (.ok ⟨none, none, none, none, none, none,
        some ['x'], none, none, none, []⟩))
      (List.replicate 3 (.ok ⟨none, none, none, none, none, none,
        some ['x'], none, none, none, []⟩))
      (by simp) (by simp)
      (by simp +decide [parse_reviews_from_soup, parseBlocksGo,
        parse_single_review, reviewDescriptionOf, ratingScoreOf, ratingTextOf,
        parse_rating_score, pyTruthyRating, List.replicate, clean_text,
        pySplit, splitOnPred, isPySpace, joinSpace, pyStrip])
      (by simp +decide [parse_reviews_from_soup, parseBlocksGo,
        parse_single_review, reviewDescriptionOf, ratingScoreOf, ratingTextOf,
        parse_rating_score, pyTruthyRating, List.replicate, clean_text,
        pySplit, splitOnPred, isPySpace, joinSpace, pyStrip])
  obtain ⟨res, hok, hlen, hmap, _⟩ := h
  exact ⟨res, hok, hlen, hmap⟩

/-- C5: for every scrape whose identifier resolves, a fetch failure on
page 2 after a productive page 1 returns the page-1 records without
raising; review blocks whose extraction raises are skipped with no
effect on the result (no exception propagates); and the only error a
caller can observe is the fatal identifier-resolution failure, raised
when and only when the identifier does not resolve, before any fetch. -/
theorem scrape_error_isolation (pages : Nat → Option (List BlockStep))
    (u : Url) :
    (∀ asin maxR b1, extract_asin u.path u.query = some asin →
      pages 1 = some b1 → pages 2 = none →
      (parse_reviews_from_soup asin 1 b1).length ≠ 0 →
      (parse_reviews_from_soup asin 1 b1).length < maxR →
      scrape_product_reviews pages u maxR =
        .ok (parse_reviews_from_soup asin 1 b1, [1, 2])) ∧
    (∀ asin start blocks,
      parse_reviews_from_soup asin start (blocks.filter isOkStep) =
        parse_reviews_from_soup asin start blocks) ∧
    (∀ maxR, (∃ e, scrape_product_reviews pages u maxR = .error e) ↔
      extract_asin u.path u.query = none) := by
  refine ⟨?_, ?_, ?_⟩
  · intro asin maxR b1 ha h1 h2 hz hlt
    have hz' : (parse_reviews_from_soup asin (0 + 1) b1).length ≠ 0 := by
      simpa using hz
    have hlt' : (parse_reviews_from_soup asin (0 + 1) b1).length < maxR := by
      simpa using hlt
    have e1 : scrapeGo pages asin maxR 0 1 =
        (parse_reviews_from_soup asin (0 + 1) b1 ++
          (scrapeGo pages asin maxR
            (0 + (parse_reviews_from_soup asin (0 + 1) b1).length) 2).1,
          1 :: (scrapeGo pages asin maxR
            (0 + (parse_reviews_from_soup asin (0 + 1) b1).length) 2).2) :=
      scrapeGo_step pages asin maxR 0 1 b1 (by omega) h1 hz' (by omega)
    have e2 : scrapeGo pages asin maxR
        (0 + (parse_reviews_from_soup asin (0 + 1) b1).length) 2 =
        ([], [2]) :=
      scrapeGo_fetch_fail pages asin maxR _ 2 (by omega) h2
    rw [e2] at e1
    rw [scrape_product_reviews, ha]
    dsimp only
    rw [e1]
    simp only [List.append_nil, Nat.zero_add]
    rw [List.take_of_length_le (by omega)]
  · intro asin start blocks
    exact parseBlocksGo_filter asin blocks start
  · intro maxR
    constructor
    · rintro ⟨e, he⟩
      cases ha : extract_asin u.path u.query with
      | none => rfl
      | some asin =>
        rw [scrape_product_reviews, ha] at he
        exact absurd he (by simp)
    · intro ha
      rw [scrape_product_reviews, ha]
      exact ⟨_, rfl⟩

/-- Witness for the C5 theorem: page 1 yields one record, the page-2
fetch fails, and the scrape returns the page-1 record without error. -/
theorem scrape_error_isolation_witness :
    scrape_product_reviews
        (fun p => if p = 1 then
            some [.ok ⟨none, none, none, none, none, none, some ['x'], none,
              none, none, []⟩]
          else none)
        ⟨"/dp/B0ABCDEFGH".data, []⟩ 3 =
      .ok (parse_reviews_from_soup "B0ABCDEFGH".data 1
        [.ok ⟨none, none, none, none, none, none, some ['x'], none, none,
          none, []⟩], [1, 2]) := by
  apply (scrape_error_isolation
      (fun p => if p = 1 then
          some [.ok ⟨none, none, none, none, none, none, some ['x'], none,
            none, none, []⟩]
        else none)
      ⟨"/dp/B0ABCDEFGH".data, []⟩).1
  · simp +decide [extract_asin, findFirst, matchLit10, dropLit]
  · simp
  · simp
  · simp +decide [parse_reviews_from_soup, parseBlocksGo,
      parse_single_review, reviewDescriptionOf, ratingScoreOf, ratingTextOf,
      parse_rating_score, pyTruthyRating, clean_text, pySplit, splitOnPred,
      isPySpace, joinSpace, pyStrip]
  · simp +decide [parse_reviews_from_soup, parseBlocksGo,
      parse_single_review, reviewDescriptionOf, ratingScoreOf, ratingTextOf,
      parse_rating_score, pyTruthyRating, clean_text, pySplit, splitOnPred,
      isPySpace, joinSpace, pyStrip]

end Scraper
